import Mathlib

/-!
Verification development for the WordPress-to-Zola migration scripts:
`convert_legacy_code_blocks.py`, `migrate_wordpress.py`, `inline_gists.py`.

Strings are modelled as `List Char` (with `String` wrappers where the source
works with `str` values directly).  Python string primitives (`str.count`,
`str.replace`, `str.strip`, regular-expression search) are given executable
embeddings below; file and network I/O are modelled by returning the content
that the scripts would write.
-/

set_option maxRecDepth 20000

namespace Caricio

/-- Python whitespace class (`\s`, `str.strip`, `str.split`), ASCII range. -/
def pyIsSpace (c : Char) : Bool :=
  c = ' ' || c = '\t' || c = '\n' || c = '\r' || c = '\x0b' || c = '\x0c'

/-- The backtick character (code fences are built from three of these). -/
def btick : Char := '\x60'

/-- Python `str.lower` on a character (ASCII case mapping; the inputs handled
by the scripts are ASCII). -/
def pyLowerChar (c : Char) : Char :=
  if 'A' ≤ c ∧ c ≤ 'Z' then Char.ofNat (c.toNat + 32) else c

def pyLowerL (l : List Char) : List Char := l.map pyLowerChar

def pyLowerS (s : String) : String := String.mk (pyLowerL s.toList)

/-- Python `str.strip()` (both ends). -/
def pyStripL (l : List Char) : List Char :=
  ((l.dropWhile pyIsSpace).reverse.dropWhile pyIsSpace).reverse

/-- Python `str.rstrip()`. -/
def pyRstripL (l : List Char) : List Char :=
  (l.reverse.dropWhile pyIsSpace).reverse

/-- Python `str.count(pat)`: greedy left-to-right count of non-overlapping
occurrences of `pat` (used with non-empty patterns only).  Defined through a
structurally recursive fuel-indexed worker so that the function evaluates by
kernel reduction; `countSub` supplies adequate fuel, and `countSubF_le` below
shows the fuel is irrelevant once adequate. -/
def countSubF (pat : List Char) : Nat → List Char → Nat
  | _, [] => 0
  | 0, _ :: _ => 0
  | fuel + 1, c :: cs =>
    if pat.isPrefixOf (c :: cs) then countSubF pat fuel (cs.drop (pat.length - 1)) + 1
    else countSubF pat fuel cs

def countSub (pat l : List Char) : Nat := countSubF pat l.length l

/-- Python `str.replace(pat, rep)`: greedy left-to-right replacement of all
non-overlapping occurrences (used with non-empty patterns only). -/
def replaceAllF (pat rep : List Char) : Nat → List Char → List Char
  | _, [] => []
  | 0, l => l
  | fuel + 1, c :: cs =>
    if pat.isPrefixOf (c :: cs) then rep ++ replaceAllF pat rep fuel (cs.drop (pat.length - 1))
    else c :: replaceAllF pat rep fuel cs

def replaceAll (l pat rep : List Char) : List Char := replaceAllF pat rep l.length l

/-- Split at the first occurrence of `pat`: returns the part before the
occurrence and the part after it (the semantics of a lazy regex group ended
by the literal `pat`). -/
def splitOnFirstF (pat : List Char) : Nat → List Char → Option (List Char × List Char)
  | _, [] => none
  | 0, _ :: _ => none
  | fuel + 1, c :: cs =>
    if pat.isPrefixOf (c :: cs) then some ([], cs.drop (pat.length - 1))
    else
      match splitOnFirstF pat fuel cs with
      | some (a, r) => some (c :: a, r)
      | none => none

def splitOnFirst (pat l : List Char) : Option (List Char × List Char) :=
  splitOnFirstF pat l.length l

/-- The `pat` has no non-trivial border: no proper non-empty prefix of `pat` is
also a suffix of `pat`. Occurrences of such a pattern cannot straddle the
left edge of a literal copy of the pattern. -/
def NoBorder (pat : List Char) : Prop :=
  ∀ k, 0 < k → k < pat.length → pat.drop k ≠ pat.take (pat.length - k)

/-! ### Regular-expression engine

A small backtracking matcher sufficient for the fixed pattern tables of
`convert_legacy_code_blocks.py`.  Only the truth of `re.search` is needed
(which line matches which pattern), not capture groups, so the matcher decides
"some prefix of the text starting at some position matches". -/
/-- Python `\w` (ASCII range; the word characters appearing in the blog
sources are ASCII). -/
def pyIsWordChar (c : Char) : Bool := c.isAlphanum || c = '_'

/-- Single-character matchers of the pattern language. -/
inductive RAtom where
  | lit (c : Char)
  | cls (cs : List Char)
  | space
  | wordc
  | digit
  | dot
deriving DecidableEq

def RAtom.hit : RAtom → Char → Bool
  | .lit c', c => c = c'
  | .cls cs, c => cs.contains c
  | .space, c => pyIsSpace c
  | .wordc, c => pyIsWordChar c
  | .digit, c => c.isDigit
  | .dot, c => c ≠ '\n'

inductive Rx where
  | eps
  | atom (a : RAtom)
  | seq (r₁ r₂ : Rx)
  | alt (r₁ r₂ : Rx)
  | star (r : Rx)
  | plus (r : Rx)
deriving DecidableEq

def Rx.size : Rx → Nat
  | .eps => 1
  | .atom _ => 1
  | .seq r₁ r₂ => r₁.size + r₂.size + 1
  | .alt r₁ r₂ => r₁.size + r₂.size + 1
  | .star r => r.size + 1
  | .plus r => r.size + 2

/-- Fuel-bounded backtracking matcher in continuation-passing style.  The fuel
bounds the nesting depth; `rxFuel` below is always sufficient, so with that
fuel the matcher decides exactly whether some prefix of `s` matches `r` and
the continuation accepts the remainder. -/
def rxRun (fuel : Nat) (r : Rx) (s : List Char) (k : List Char → Bool) : Bool :=
  match fuel with
  | 0 => false
  | fuel + 1 =>
    match r with
    | .eps => k s
    | .atom a =>
      match s with
      | [] => false
      | c :: s' => a.hit c && k s'
    | .seq r₁ r₂ => rxRun fuel r₁ s (fun s' => rxRun fuel r₂ s' k)
    | .alt r₁ r₂ => rxRun fuel r₁ s k || rxRun fuel r₂ s k
    | .star r₁ =>
      k s || rxRun fuel r₁ s
        (fun s' => decide (s'.length < s.length) && rxRun fuel (.star r₁) s' k)
    | .plus r₁ => rxRun fuel r₁ s (fun s' => rxRun fuel (.star r₁) s' k)

def rxFuel (r : Rx) (s : List Char) : Nat := (Rx.size r + 2) * (s.length + 2)

/-- Does `r` match at the start of `s` (any prefix)? -/
def rxAccept (r : Rx) (s : List Char) : Bool :=
  rxRun (rxFuel r s) r s (fun _ => true)

/-- Does `r` match anywhere in `s`? -/
def rxSearchRaw (r : Rx) : List Char → Bool
  | [] => rxAccept r []
  | c :: cs => rxAccept r (c :: cs) || rxSearchRaw r cs

/-- A compiled pattern: `anchored` records a leading `^` (the scripts never
use `re.MULTILINE`, and patterns are applied to single lines). -/
structure RePattern where
  anchored : Bool
  rx : Rx
deriving DecidableEq

/-- The `re.search(pattern, line)` truthiness. -/
def reSearch (p : RePattern) (line : List Char) : Bool :=
  if p.anchored then rxAccept p.rx line else rxSearchRaw p.rx line

/-- Literal character sequence. -/
def lits : List Char → Rx
  | [] => .eps
  | [c] => .atom (.lit c)
  | c :: cs => .seq (.atom (.lit c)) (lits cs)

def litS (s : String) : Rx := lits s.toList

def wsStar : Rx := .star (.atom .space)

def wsPlus : Rx := .plus (.atom .space)

def wordPlus : Rx := .plus (.atom .wordc)

def digit2 : Rx := .seq (.atom .digit) (.atom .digit)

def digit4 : Rx := .seq digit2 digit2

/-! ### The pattern tables (transcribed regex by regex from the source) -/
/-- The `PYTHON_PATTERNS` of `convert_legacy_code_blocks.py`. -/
def PYTHON_PATTERNS : List RePattern :=
  [ ⟨true, .seq wsStar (.seq (litS "import") wsPlus)⟩,
    ⟨true, .seq wsStar (.seq (litS "from") (.seq wsPlus
      (.seq (.plus (.atom .dot)) (.seq wsPlus (litS "import")))))⟩,
    ⟨true, .seq wsStar (.seq (litS "def") (.seq wsPlus wordPlus))⟩,
    ⟨true, .seq wsStar (.seq (litS "class") (.seq wsPlus wordPlus))⟩,
    ⟨true, .seq wsStar (.seq (litS "async") (.seq wsPlus (litS "def")))⟩,
    ⟨true, litS "#!/usr/bin/env python"⟩,
    ⟨false, .seq (litS "@app.")
      (.alt (litS "get") (.alt (litS "post") (.alt (litS "put") (litS "delete"))))⟩,
    ⟨true, .seq wsStar (.seq (litS "async") (.seq wsPlus (litS "with")))⟩ ]

/-- The `RUST_PATTERNS` of `convert_legacy_code_blocks.py`. -/
def RUST_PATTERNS : List RePattern :=
  [ ⟨true, .seq wsStar (.seq (litS "use") (.seq wsPlus (litS "std::")))⟩,
    ⟨true, .seq wsStar (.seq (litS "fn") (.seq wsPlus wordPlus))⟩,
    ⟨true, .seq wsStar (.seq (litS "let") (.seq wsPlus wordPlus))⟩,
    ⟨true, .seq wsStar (.seq (litS "impl") wsPlus)⟩,
    ⟨true, .seq wsStar (.seq (litS "pub") (.seq wsPlus
      (.alt (litS "fn") (.alt (litS "struct") (litS "enum")))))⟩,
    ⟨false, .seq (litS "::") (.seq wsStar (litS "unwrap()"))⟩,
    ⟨false, .seq (litS ".") (.seq wsStar (litS "ok()"))⟩,
    ⟨false, .seq (litS ".") (.seq wsStar (litS "map("))⟩ ]

/-- The `BASH_PATTERNS` of `convert_legacy_code_blocks.py`. -/
def BASH_PATTERNS : List RePattern :=
  [ ⟨false, .seq (litS "$") (.seq wsPlus
      (.alt (litS "brew") (.alt (litS "gst-launch")
        (.alt (litS "gst-inspect") (.alt (litS "http") (litS "uvicorn"))))))⟩,
    ⟨true, .seq wsStar (.seq (litS "brew") wsPlus)⟩,
    ⟨true, .seq wsStar (litS "gst-launch")⟩,
    ⟨true, .seq wsStar (litS "gst-inspect")⟩,
    ⟨false, .seq (litS "depends_on") (.seq wsPlus (litS "\""))⟩ ]

/-- The first entry of `TEXT_PATTERNS`: the timestamp marker
`^\d{4}-\d{2}-\d{2}\s+\d{2}:\d{2}`. -/
def timestampPattern : RePattern :=
  ⟨true, .seq digit4 (.seq (litS "-") (.seq digit2 (.seq (litS "-")
    (.seq digit2 (.seq wsPlus (.seq digit2 (.seq (litS ":") digit2)))))))⟩

/-- The `TEXT_PATTERNS` of `convert_legacy_code_blocks.py` (plain-output markers). -/
def TEXT_PATTERNS : List RePattern :=
  [ timestampPattern,
    ⟨true, .seq wsStar (.atom (.cls ['├', '│', '└']))⟩,
    ⟨false, litS "WARNING:"⟩,
    ⟨false, .seq (litS "<Response") (.seq wsPlus (litS "["))⟩,
    ⟨false, .seq (litS "#") (.seq wsPlus (.seq (litS "file") wsPlus))⟩ ]

/-! ### Content and context classifiers -/
/-- The non-blank lines of the stripped snippet, the list comprehension at
the top of `detect_language_from_content`. -/
def codeLines (code : String) : List (List Char) :=
  ((pyStripL code.toList).splitOn '\n').filter (fun l => pyStripL l ≠ [])

/-- The plain-output check of `detect_language_from_content`: some
`TEXT_PATTERNS` entry matches one of the first 5 non-blank lines. -/
def textTriggered (ls : List (List Char)) : Bool :=
  TEXT_PATTERNS.any (fun p => (ls.take 5).any (fun l => reSearch p l))

/-- Number of distinct patterns of the table with at least one matching line
(each pattern contributes at most one point). -/
def patternScore (pats : List RePattern) (ls : List (List Char)) : Nat :=
  (pats.filter (fun p => ls.any (fun l => reSearch p l))).length

/-- Python `max(scores, key=lambda x: x[1])`: first element wins ties. -/
def pyMaxBySecond (first : String × Nat) (rest : List (String × Nat)) : String × Nat :=
  rest.foldl (fun best x => if x.2 > best.2 then x else best) first

/-- The `detect_language_from_content` of `convert_legacy_code_blocks.py`. -/
def detect_language_from_content (code : String) : Option String :=
  let ls := codeLines code
  if ls = [] then none
  else if textTriggered ls then some "text"
  else
    let python_score := patternScore PYTHON_PATTERNS ls
    let rust_score := patternScore RUST_PATTERNS ls
    let bash_score := patternScore BASH_PATTERNS ls
    let m := pyMaxBySecond ("python", python_score) [("rust", rust_score), ("bash", bash_score)]
    if m.2 ≥ 2 then some m.1 else none

/-- Substring test (`needle in haystack` on Python strings). -/
def pyIn (needle : List Char) : List Char → Bool
  | [] => needle.isEmpty
  | c :: t => needle.isPrefixOf (c :: t) || pyIn needle t

/-- Python dict lookup with the empty string as default; the dict is modelled as an
association list in insertion order, later assignments overwriting, so the
last binding wins. -/
def fmGet (fm : List (String × String)) (k : String) : String :=
  ((fm.reverse.find? (fun p => p.1 = k)).map Prod.snd).getD ""

/-- The `detect_language_from_context` of `convert_legacy_code_blocks.py`
(`filename` is `filepath.name`). -/
def detect_language_from_context (filename : String) (fm : List (String × String)) :
    Option String :=
  let fn := pyLowerL filename.toList
  if pyIn "python".toList fn || pyIn "fastapi".toList fn then some "python"
  else if pyIn "rust".toList fn then some "rust"
  else
    let categories := pyLowerL (fmGet fm "categories").toList
    let tags := pyLowerL (fmGet fm "tags").toList
    if pyIn "python".toList categories || pyIn "python".toList tags ||
        pyIn "fastapi".toList tags then some "python"
    else if pyIn "rust".toList categories || pyIn "rust".toList tags then some "rust"
    else none

/-- The `detect_language` function: content analysis first, context as
fallback, the empty string when neither resolves. -/
def detect_language (code : String) (filename : String) (fm : List (String × String)) :
    String :=
  match detect_language_from_content code with
  | some l => l
  | none =>
    match detect_language_from_context filename fm with
    | some l => l
    | none => ""

/-! ### Frontmatter parsing (`parse_frontmatter`) -/
def pppM : List Char := ['+', '+', '+']

/-- Python `str.strip` over the quote-and-bracket character set. -/
def stripQuoteBrackets (l : List Char) : List Char :=
  let mem := fun c => c = '"' || c = '[' || c = ']'
  ((l.dropWhile mem).reverse.dropWhile mem).reverse

/-- The regex `^\+\+\+\s*\n(.*?)\n\+\+\+` (re.DOTALL, anchored by `re.match`):
after the literal `+++`, the greedy `\s*` tries each newline of the following
whitespace run from the last to the first as the `\n` of the pattern; the lazy
group then ends at the first later occurrence of `"\n+++"`. -/
def fmSearchFrom (after : List Char) : List Nat → Option (List Char)
  | [] => none
  | j :: js =>
    match splitOnFirst ('\n' :: pppM) (after.drop (j + 1)) with
    | some (body, _) => some body
    | none => fmSearchFrom after js

def fmMatch (content : List Char) : Option (List Char) :=
  if pppM.isPrefixOf content then
    let after := content.drop 3
    let w := after.takeWhile pyIsSpace
    let js := ((List.range w.length).filter (fun i => w.getD i ' ' = '\n')).reverse
    fmSearchFrom after js
  else none

/-- The `parse_frontmatter` of `convert_legacy_code_blocks.py`: key/value lines of
the `+++` block (`line.split` at the first equals sign, keys stripped, values stripped then
stripped of quote and bracket characters). -/
def parse_frontmatter (content : List Char) : List (String × String) :=
  match fmMatch content with
  | none => []
  | some inner =>
    (inner.splitOn '\n').foldl (fun acc line =>
      match splitOnFirst ['='] line with
      | some (k, v) =>
        acc ++ [(String.mk (pyStripL k), String.mk (stripQuoteBrackets (pyStripL v)))]
      | none => acc) []

/-! ### Legacy block location and rewriting -/
def openerM : List Char := ['[', 'c', 'o', 'd', 'e', ']']

def closerM : List Char := ['[', '/', 'c', 'o', 'd', 'e', ']']

def fenceM : List Char := [btick, btick, btick]

/-- Number of characters the regex `\s*\n` consumes of a whitespace run `w`
containing a newline: the greedy `\s*` backtracks to the last newline of the
run, which becomes the `\n` of the pattern. -/
def nlDropCount (w : List Char) : Nat :=
  w.length - (w.reverse.takeWhile (fun c => c ≠ '\n')).length

/-- One attempted match of `\[code\]\s*\n(.*?)\[/code\]` (with `re.DOTALL`)
at the start of `s`: the literal opener, a whitespace run that must contain a
newline, then the lazy group ending at the first `[/code]` after the last
newline of the run (`[/code]` starts with a non-whitespace character, so no
earlier backtracking alternative can succeed if this one fails).  Returns
`group(1).rstrip()` and the text after the match, as `find_code_blocks`
records them. -/
def matchHere (s : List Char) : Option (List Char × List Char) :=
  if openerM.isPrefixOf s then
    if ((s.drop 6).takeWhile pyIsSpace).contains '\n' then
      match splitOnFirst closerM
          ((s.drop 6).drop (nlDropCount ((s.drop 6).takeWhile pyIsSpace))) with
      | some (body, rest) => some (pyRstripL body, rest)
      | none => none
    else none
  else none

/-- The `find_code_blocks` of `convert_legacy_code_blocks.py`: every
non-overlapping match of the legacy-block pattern, scanned left to right
(`re.finditer` advances to the end of each match), recorded by its rstripped
group content.  (The source also records `start`/`end` offsets; the rewriting
below realises the reverse-order offset splices of `process_file` as the
equivalent left-to-right rebuild.)  Fuel-indexed worker for kernel
reduction; the fuel is adequate because every match consumes at least one
character. -/
def find_code_blocksF : Nat → List Char → List (List Char)
  | _, [] => []
  | 0, _ :: _ => []
  | fuel + 1, c :: cs =>
    match matchHere (c :: cs) with
    | some (content, rest) => content :: find_code_blocksF fuel rest
    | none => find_code_blocksF fuel cs

def find_code_blocks (doc : List Char) : List (List Char) :=
  find_code_blocksF doc.length doc

/-- The `convert_code_block`: fenced form with optional language tag. -/
def convert_code_block (code : List Char) (language : String) : List Char :=
  if language ≠ "" then fenceM ++ language.toList ++ '\n' :: code ++ '\n' :: fenceM
  else fenceM ++ '\n' :: code ++ '\n' :: fenceM

/-- The conversion loop of `process_file`: each legacy block, in document
order, replaced by its fenced form tagged with `detect_language` of its
content (the source splices in reverse order so that earlier offsets stay
valid, which yields exactly this left-to-right rebuild). -/
def rewriteBlocksF (filename : String) (fm : List (String × String)) :
    Nat → List Char → List Char
  | _, [] => []
  | 0, l => l
  | fuel + 1, c :: cs =>
    match matchHere (c :: cs) with
    | some (content, rest) =>
      convert_code_block content (detect_language (String.mk content) filename fm) ++
        rewriteBlocksF filename fm fuel rest
    | none => c :: rewriteBlocksF filename fm fuel cs

def rewriteBlocks (filename : String) (fm : List (String × String)) (doc : List Char) :
    List Char :=
  rewriteBlocksF filename fm doc.length doc

/-! ### Validation and per-file processing -/
/-- The `fix_syntax_errors_gstreamer_post`: two literal global substitutions (the
regex patterns contain only escaped metacharacters). -/
def fix_syntax_errors_gstreamer_post (content : List Char) : List Char :=
  let c1 := replaceAll content
    "Or [using the actual GStreamer bindings for Python](```python".toList
    "Or using the actual GStreamer bindings for Python:\n\n```python".toList
  replaceAll c1 "```\n).".toList "```\n\n).".toList

/-- The validation issues of `validate_conversion` (the source renders them as
message strings; the numbers interpolated into the messages are carried as
fields). -/
inductive Issue where
  | legacyOpenTags
  | legacyCloseTags
  | unbalancedFences (fenceCount : Nat)
  | lineCountChanged (origLines convLines diff : Nat)
deriving DecidableEq

/-- The line count `len` of the newline-split string. -/
def countLines (l : List Char) : Nat := countSub ['\n'] l + 1

def natDist (a b : Nat) : Nat := if a ≥ b then a - b else b - a

/-- The `validate_conversion` of `convert_legacy_code_blocks.py`. -/
def validate_conversion (original converted : List Char) : List Issue :=
  let issues₁ := if pyIn openerM (pyLowerL converted) then [Issue.legacyOpenTags] else []
  let issues₂ := issues₁ ++
    (if pyIn closerM (pyLowerL converted) then [Issue.legacyCloseTags] else [])
  let fc := countSub fenceM converted
  let issues₃ := issues₂ ++ (if fc % 2 ≠ 0 then [Issue.unbalancedFences fc] else [])
  let ol := countLines original
  let cl := countLines converted
  issues₃ ++
    (if natDist ol cl > 15 then [Issue.lineCountChanged ol cl (natDist ol cl)] else [])

/-- The converted text computed by `process_file` before validation: the block
rewrite, then the GStreamer-post fixes when the file name contains
`2025-11-17`. -/
def convertedDoc (filename : String) (doc : List Char) : List Char :=
  let fm := parse_frontmatter doc
  let conv := rewriteBlocks filename fm doc
  if pyIn "2025-11-17".toList filename.toList then fix_syntax_errors_gstreamer_post conv
  else conv

/-- Result of `process_file`: the file content after the run (the source
writes it back on success; on any other path the file is untouched), plus the
returned triple `(success, converted_block_count, issues)`. -/
structure ProcessResult where
  content : List Char
  success : Bool
  blockCount : Nat
  issues : List Issue
deriving DecidableEq

/-- The `process_file` of `convert_legacy_code_blocks.py` (`filename` is
`filepath.name`; reading and writing the file are modelled by the `content`
field of the result). -/
def process_file (filename : String) (doc : List Char) (dryRun : Bool) : ProcessResult :=
  let blocks := find_code_blocks doc
  if blocks = [] then ⟨doc, false, 0, []⟩
  else
    let conv := convertedDoc filename doc
    let issues := validate_conversion doc conv
    if issues ≠ [] then ⟨doc, false, 0, issues⟩
    else if dryRun then ⟨doc, true, blocks.length, []⟩
    else ⟨conv, true, blocks.length, []⟩

/-! ### WXR migration (`migrate_wordpress.py`)

A post `<item>` is modelled by the field values the script extracts from it:
`get_xml_text` yields `Option String` (`none` for a missing or empty
element), `get_xml_cdata` yields `String` (default: the empty string).  The XML parsing
itself (lxml) is an external collaborator. -/
structure WpCategory where
  domain : Option String
  text : Option String
deriving DecidableEq

structure WpItem where
  title : String
  link : Option String
  slug : Option String
  pubDate : Option String
  postDate : Option String
  contentHtml : String
  excerptHtml : String
  status : Option String
  categories : List WpCategory
deriving DecidableEq

/-- Python truthiness of an optional string (`None` and the empty string are
falsy). -/
def optTruthy : Option String → Bool
  | some s => s ≠ ""
  | none => false

/-- Rendering an optional string inside an f-string (`None` prints as
`"None"`). -/
def pyStr : Option String → String
  | some s => s
  | none => "None"

/-- The `sanitize_filename` function: `re.sub` replaces every character
outside the permitted class `[\w\-_.]` with an underscore. -/
def sanitize_filename (name : String) : String :=
  String.mk (name.toList.map (fun c =>
    if pyIsWordChar c || c = '-' || c = '_' || c = '.' then c else '_'))

/-! #### `convert_date`

`datetime.strptime` with format `%Y-%m-%d %H:%M:%S`, then `strftime` with
format `%Y-%m-%d`, with a `datetime.fromisoformat` fallback and the empty
string on failure.  The CPython `strptime` field regexes are reproduced: `%Y` is
exactly four digits; `%m`, `%d`, `%H`, `%M`, `%S` accept one or two digits
with the two-digit form preferred (backtracking into the one-digit form never
succeeds when the two-digit form matched, because the following character
would have to be both a separator and a digit); a literal space in the format
matches a run of whitespace; the whole string must be consumed; the
`datetime` constructor then validates the calendar date. -/
def digitVal (c : Char) : Nat := c.toNat - 48

/-- One- or two-digit numeric field where the two-digit alternatives cover
exactly the values in `[lo2, hi2]` and the one-digit alternatives the digits
in `[lo1, hi1]`. -/
def parseField (lo2 hi2 lo1 hi1 : Nat) : List Char → Option (Nat × List Char)
  | c₁ :: c₂ :: rest =>
    if c₁.isDigit ∧ c₂.isDigit ∧ lo2 ≤ digitVal c₁ * 10 + digitVal c₂ ∧
        digitVal c₁ * 10 + digitVal c₂ ≤ hi2 then
      some (digitVal c₁ * 10 + digitVal c₂, rest)
    else if c₁.isDigit ∧ lo1 ≤ digitVal c₁ ∧ digitVal c₁ ≤ hi1 then
      some (digitVal c₁, c₂ :: rest)
    else none
  | [c₁] =>
    if c₁.isDigit ∧ lo1 ≤ digitVal c₁ ∧ digitVal c₁ ≤ hi1 then some (digitVal c₁, [])
    else none
  | [] => none

/-- The `%m`: `1[0-2]|0[1-9]|[1-9]`. -/
def parseMonth : List Char → Option (Nat × List Char) := parseField 1 12 1 9

/-- The `%d`: `3[01]|[12]\d|0[1-9]|[1-9]`. -/
def parseDay : List Char → Option (Nat × List Char) := parseField 1 31 1 9

/-- The `%H`: `2[0-3]|[0-1]\d|\d`. -/
def parseHour : List Char → Option (Nat × List Char) := parseField 0 23 0 9

/-- The `%M` and `%S`: `[0-5]\d|\d`. -/
def parseMinSec : List Char → Option (Nat × List Char) := parseField 0 59 0 9

/-- The `%Y`: exactly four digits. -/
def parseYear4 : List Char → Option (Nat × List Char)
  | c₁ :: c₂ :: c₃ :: c₄ :: rest =>
    if c₁.isDigit ∧ c₂.isDigit ∧ c₃.isDigit ∧ c₄.isDigit then
      some (((digitVal c₁ * 10 + digitVal c₂) * 10 + digitVal c₃) * 10 + digitVal c₄, rest)
    else none
  | _ => none

def expectChar (c : Char) : List Char → Option (List Char)
  | x :: rest => if x = c then some rest else none
  | [] => none

def parseWsPlus (l : List Char) : Option (List Char) :=
  if (l.takeWhile pyIsSpace).length = 0 then none
  else some (l.drop (l.takeWhile pyIsSpace).length)

def isLeapYear (y : Nat) : Bool := y % 4 = 0 && (y % 100 ≠ 0 || y % 400 = 0)

def daysInMonth (y m : Nat) : Nat :=
  if m = 2 then (if isLeapYear y then 29 else 28)
  else if m = 4 ∨ m = 6 ∨ m = 9 ∨ m = 11 then 30
  else 31

/-- Validity as checked by the `datetime` constructor (`MINYEAR = 1`). -/
def validYmd (y m d : Nat) : Bool :=
  1 ≤ y && y ≤ 9999 && 1 ≤ m && m ≤ 12 && 1 ≤ d && d ≤ daysInMonth y m

/-- The `strptime` parse with format `%Y-%m-%d %H:%M:%S`, returning the date
components. -/
def parseWpDatetime (s : List Char) : Option (Nat × Nat × Nat) := do
  let (y, s) ← parseYear4 s
  let s ← expectChar '-' s
  let (m, s) ← parseMonth s
  let s ← expectChar '-' s
  let (d, s) ← parseDay s
  let s ← parseWsPlus s
  let (_, s) ← parseHour s
  let s ← expectChar ':' s
  let (_, s) ← parseMinSec s
  let s ← expectChar ':' s
  let (_, s) ← parseMinSec s
  if s = [] ∧ validYmd y m d then some (y, m, d) else none

def parse2ZeroPad : List Char → Option (Nat × List Char)
  | c₁ :: c₂ :: rest =>
    if c₁.isDigit ∧ c₂.isDigit then some (digitVal c₁ * 10 + digitVal c₂, rest)
    else none
  | _ => none

/-- The optional UTC-offset tail accepted after an ISO time (`+HH:MM` or
`-HH:MM`; the printed date ignores the offset). -/
def isoOffsetOk (s : List Char) : Bool :=
  match s with
  | [] => true
  | sign :: rest =>
    (sign = '+' || sign = '-') &&
    (match parse2ZeroPad rest with
     | some (hh, rest) =>
       (match expectChar ':' rest with
        | some rest =>
          (match parse2ZeroPad rest with
           | some (mm, rest) => hh ≤ 23 && mm ≤ 59 && rest.isEmpty
           | none => false)
        | none => false)
     | none => false)

/-- The optional time tail accepted after an ISO date. -/
def isoTimeOk (s : List Char) : Bool :=
  match s with
  | [] => true
  | sep :: rest =>
    (sep = 'T' || sep = ' ') &&
    (match parse2ZeroPad rest with
     | some (hh, rest) =>
       (match expectChar ':' rest with
        | some rest =>
          (match parse2ZeroPad rest with
           | some (mi, rest) =>
             hh ≤ 23 && mi ≤ 59 &&
             (match rest with
              | ':' :: rest' =>
                (match parse2ZeroPad rest' with
                 | some (ss, rest₂) => ss ≤ 59 && isoOffsetOk rest₂
                 | none => false)
              | _ => isoOffsetOk rest)
           | none => false)
        | none => false)
     | none => false)

/-- Models `datetime.fromisoformat` on the common ISO-8601 forms
(`YYYY-MM-DD`, optionally followed by a time and a UTC offset); exotic forms
(fractional seconds, compressed dates) are treated as unparseable, which only
widens the empty-string fallback. -/
def parseIsoDate (s : List Char) : Option (Nat × Nat × Nat) := do
  let (y, s) ← parseYear4 s
  let s ← expectChar '-' s
  let (m, s) ← parse2ZeroPad s
  let s ← expectChar '-' s
  let (d, s) ← parse2ZeroPad s
  if validYmd y m d ∧ isoTimeOk s then some (y, m, d) else none

def padNum (width n : Nat) : String :=
  let s := toString n
  String.mk (List.replicate (width - s.length) '0') ++ s

/-- The `strftime` output with format `%Y-%m-%d`. -/
def fmtYmd (y m d : Nat) : String :=
  padNum 4 y ++ "-" ++ padNum 2 m ++ "-" ++ padNum 2 d

/-- The `convert_date` of `migrate_wordpress.py` (`None` input raises inside both
attempts, caught by the bare `except:` clauses, yielding the empty
string). -/
def convert_date (wpDate : Option String) : String :=
  match wpDate with
  | none => ""
  | some s =>
    match parseWpDatetime s.toList with
    | some (y, m, d) => fmtYmd y m d
    | none =>
      match parseIsoDate (replaceAll s.toList ['Z'] "+00:00".toList) with
      | some (y, m, d) => fmtYmd y m d
      | none => ""

/-! #### Link rewriting and `migrate_post` -/
/-- One `re.sub` pass whose pattern is a literal prefix `pre` followed by a
greedy one-or-more group over a character class `keep`, and whose replacement
is `repPre` followed by the group (the shape of both substitutions in
`process_content_links`): left-to-right scan, greedy group of at least one
class character, non-overlapping. -/
def reSubPrefixClass (pre : List Char) (keep : Char → Bool) (repPre : List Char) :
    List Char → List Char
  | [] => []
  | c :: cs =>
    if h : pre.isPrefixOf (c :: cs) ∧ (((c :: cs).drop pre.length).takeWhile keep).length ≠ 0 then
      repPre ++ ((c :: cs).drop pre.length).takeWhile keep ++
        reSubPrefixClass pre keep repPre
          (((c :: cs).drop pre.length).drop
            ((((c :: cs).drop pre.length).takeWhile keep).length))
    else c :: reSubPrefixClass pre keep repPre cs
termination_by l => l.length
decreasing_by
  · have h2 := h.2
    simp only [List.length_drop, List.length_cons] at h2 ⊢
    omega
  · simp

/-- The `process_content_links` of `migrate_wordpress.py`: media links under the
source site's upload path become site-relative asset paths, then remaining
absolute links to the source site become site-relative paths. -/
def process_content_links (md : String) : String :=
  let step1 := reSubPrefixClass "https://caricio.com/wp-content/uploads/".toList
    (fun ch => ¬ pyIsSpace ch ∧ ch ≠ ')') "/wp-content/uploads/".toList md.toList
  String.mk (reSubPrefixClass "https://caricio.com/".toList
    (fun ch => ¬ pyIsSpace ch ∧ ch ≠ '/' ∧ ch ≠ ')' ∧ ch ≠ ']') "/".toList step1)

/-- The `html_to_markdown` of `migrate_wordpress.py`; the `HTML2Text` conversion
itself is an external collaborator, passed in as `handle`. -/
def html_to_markdown (handle : String → String) (html : String) : String :=
  if html = "" then "" else String.mk (pyStripL (handle html).toList)

/-- The slug written for a taxonomy label:
`sanitize_filename(label.lower().replace(' ', '-'))`. -/
def slugifyLabel (name : String) : String :=
  sanitize_filename (String.mk ((pyLowerL name.toList).map
    (fun c => if c = ' ' then '-' else c)))

/-- The category slugs collected by `migrate_post` (domain `category`, truthy
text, `Uncategorized` excluded). -/
def categoriesOf (it : WpItem) : List String :=
  it.categories.filterMap (fun cat =>
    if cat.domain = some "category" then
      match cat.text with
      | some nm => if nm ≠ "" ∧ nm ≠ "Uncategorized" then some (slugifyLabel nm) else none
      | none => none
    else none)

/-- The tag slugs collected by `migrate_post` (domain `post_tag`, truthy
text). -/
def tagsOf (it : WpItem) : List String :=
  it.categories.filterMap (fun cat =>
    if cat.domain = some "post_tag" then
      match cat.text with
      | some nm => if nm ≠ "" then some (slugifyLabel nm) else none
      | none => none
    else none)

/-- Python `repr` of a list of strings, as interpolated by the f-string
the categories f-string of the frontmatter (the slugs contain neither quotes
nor backslashes, so the plain single-quoted form is exact). -/
def listReprPy (l : List String) : String :=
  let sq := String.singleton (Char.ofNat 39)
  "[" ++ String.intercalate ", " (l.map (fun s => sq ++ s ++ sq)) ++ "]"

/-- The dictionary returned by `migrate_post` for a migrated post, together
with the content written to the post's file (`fileContent` models the
`f.write` side effect; `filename` the file's name under the blog directory). -/
structure MigratedPost where
  title : String
  slug : Option String
  link : Option String
  date : String
  filename : String
  fileContent : String
deriving DecidableEq

/-- The `migrate_post` of `migrate_wordpress.py`.  `handle` is the `HTML2Text`
conversion and `unesc` is `html.unescape`, both external collaborators. -/
def migrate_post (handle unesc : String → String) (it : WpItem) : Option MigratedPost :=
  if it.status ≠ some "publish" then none
  else
    let content_md := process_content_links (html_to_markdown handle it.contentHtml)
    let categories := categoriesOf it
    let tags := tagsOf it
    let date := convert_date it.postDate
    let filename :=
      if date ≠ "" then date ++ "-" ++ pyStr it.slug ++ ".md" else pyStr it.slug ++ ".md"
    let fm₁ := "+++\ntitle = \"" ++ unesc it.title ++ "\"\ndate = " ++ date ++
      "\nslug = \"" ++ pyStr it.slug ++ "\"\n"
    let fm₂ :=
      if it.excerptHtml ≠ "" then
        fm₁ ++ "description = \"\"\"" ++
          String.mk (pyStripL (unesc (html_to_markdown handle it.excerptHtml)).toList) ++
          "\"\"\"\n"
      else fm₁
    let fm₃ :=
      if categories ≠ [] ∨ tags ≠ [] then
        fm₂ ++ "\n[taxonomies]\n" ++
          (if categories ≠ [] then "categories = " ++ listReprPy categories ++ "\n" else "") ++
          (if tags ≠ [] then "tags = " ++ listReprPy tags ++ "\n" else "")
      else fm₂
    let fm₄ := fm₃ ++ "+++\n"
    some ⟨it.title, it.slug, it.link, date, filename, fm₄ ++ "\n" ++ content_md⟩

/-- The posts loop of `main`: each post item migrated in order, skipped items
contributing nothing (`if result: migrated_posts.append(result)`). -/
def migrateAll (handle unesc : String → String) (items : List WpItem) : List MigratedPost :=
  items.filterMap (migrate_post handle unesc)

/-- Python `str.rstrip('/')`. -/
def pyRstripSlash (s : String) : String :=
  String.mk (s.toList.reverse.dropWhile (fun c => c = '/')).reverse

/-- Insertion into the `redirects` dict: an existing key keeps its position
and gets the new value, a new key is appended. -/
def dictInsert (m : List (String × String)) (k v : String) : List (String × String) :=
  if m.any (fun p => p.1 = k) then m.map (fun p => if p.1 = k then (k, v) else p)
  else m ++ [(k, v)]

/-- The `create_redirect_map` of `migrate_wordpress.py` (the dict serialized to
`redirects.json`, modelled in insertion order). -/
def create_redirect_map (posts : List MigratedPost) : List (String × String) :=
  posts.foldl (fun m p =>
    if optTruthy p.link ∧ optTruthy p.slug then
      let zola_slug := if p.date ≠ "" then p.date ++ "-" ++ pyStr p.slug else pyStr p.slug
      dictInsert m (pyRstripSlash (pyStr p.link)) ("/blog/" ++ zola_slug ++ "/")
    else m) []

/-! ### Gist inlining (`inline_gists.py`) -/
/-- One file of a fetched gist, as read from the API response JSON
(`language` may be JSON `null`). -/
structure GistFile where
  filename : String
  language : Option String
  content : String
deriving DecidableEq

structure GistCodeBlock where
  filename : String
  language : String
  content : String
deriving DecidableEq

/-- The `extract_code_from_gist`: files with truthy content, in response order,
language lowercased (empty when falsy). -/
def extract_code_from_gist (files : List GistFile) : List GistCodeBlock :=
  files.filterMap (fun f =>
    if f.content ≠ "" then
      some ⟨f.filename,
        (match f.language with
         | some l => if l ≠ "" then pyLowerS l else ""
         | none => ""),
        f.content⟩
    else none)

def gistUrlOf (gistId : String) : String :=
  "https://gist.github.com/rafaelcaricio/" ++ gistId

/-- The fenced block built for one gist file. -/
def gistBlockMd (b : GistCodeBlock) : String :=
  if b.language ≠ "" then "```" ++ b.language ++ "\n" ++ b.content ++ "\n```\n"
  else "```\n" ++ b.content ++ "\n```\n"

/-- The inner loop of `process_post` for one fetched gist: for each extracted
code block, every remaining occurrence of the gist URL is replaced by that
block's fenced form. -/
def inlineGistBlocks (content : String) (gistId : String) (blocks : List GistCodeBlock) :
    String :=
  blocks.foldl (fun c b =>
    String.mk (replaceAll c.toList (gistUrlOf gistId).toList (gistBlockMd b).toList)) content

/-- A draft record, as in the spec's example. -/
def exampleDraft : WpItem :=
  { title := "Draft post", link := some "https://caricio.com/draft-post/",
    slug := some "draft-post", pubDate := none, postDate := some "2022-01-01 10:00:00",
    contentHtml := "<p>x</p>", excerptHtml := "", status := some "draft", categories := [] }

/-- The published record of the spec's example (slug `hello-world`, date
`2021-07-08 08:56:00`). -/
def exampleHelloPost : WpItem :=
  { title := "Hello World", link := some "https://caricio.com/hello-world/",
    slug := some "hello-world", pubDate := none,
    postDate := some "2021-07-08 08:56:00", contentHtml := "<p>hi</p>",
    excerptHtml := "", status := some "publish", categories := [] }

/-- Slugification as the specification words it: lowercasing, whitespace to
hyphens, and characters outside the permitted class dropped. -/
def specSlugifyLabel (name : String) : String :=
  String.mk (((pyLowerL name.toList).map (fun c => if pyIsSpace c then '-' else c)).filter
    (fun c => pyIsWordChar c || c = '-' || c = '_' || c = '.'))

/-- A published record with a category label containing characters outside
the permitted class. -/
def exampleCppPost : WpItem :=
  { title := "On Cpp", link := some "https://caricio.com/on-cpp/",
    slug := some "on-cpp", pubDate := none, postDate := some "2021-07-08 08:56:00",
    contentHtml := "<p>x</p>", excerptHtml := "", status := some "publish",
    categories := [⟨some "category", some "C++"⟩] }

/-- Head-of-body condition: the body of a well-formed block does not start
with whitespace, so the whitespace run after `[code]` is exactly the one
newline written by `renderDoc`. -/
def headNotSpace (b : List Char) : Bool :=
  match b with
  | [] => true
  | c :: _ => !pyIsSpace c

/-- A document assembled from a leading gap and a sequence of legacy blocks
each followed by a gap: `g [code]\n body₁ [/code] gap₁ ...`. -/
def renderDoc (g : List Char) : List (List Char × List Char) → List Char
  | [] => g
  | (body, gap) :: rest => g ++ (openerM ++ '\n' :: (body ++ closerM ++ renderDoc gap rest))

/-- A well-formed gap: free of legacy markers and of backticks. -/
def okGap (g : List Char) : Prop :=
  countSub openerM g = 0 ∧ countSub closerM g = 0 ∧ btick ∉ g

/-- A well-formed block body: does not start with whitespace, free of legacy
markers and of backticks. -/
def okBody (b : List Char) : Prop :=
  headNotSpace b = true ∧ countSub openerM b = 0 ∧ countSub closerM b = 0 ∧ btick ∉ b

/-! ### Fuel irrelevance and equation lemmas -/
theorem isPrefixOf_eq {l₁ l₂ : List Char} : l₁.isPrefixOf l₂ ↔ l₁ <+: l₂ :=
  List.isPrefixOf_iff_prefix

theorem countSubF_nil (pat : List Char) (fuel : Nat) : countSubF pat fuel [] = 0 := by
  cases fuel <;> rfl

theorem countSubF_le (pat : List Char) :
    ∀ fuel₁ fuel₂ l, l.length ≤ fuel₁ → l.length ≤ fuel₂ →
      countSubF pat fuel₁ l = countSubF pat fuel₂ l := by
  intro fuel₁
  induction fuel₁ with
  | zero =>
    intro fuel₂ l h1 _
    have : l = [] := List.length_eq_zero.mp (Nat.le_zero.mp h1)
    subst this
    rw [countSubF_nil, countSubF_nil]
  | succ f ih =>
    intro fuel₂ l h1 h2
    match l with
    | [] => rw [countSubF_nil, countSubF_nil]
    | c :: cs =>
      match fuel₂, h2 with
      | f₂ + 1, h2 =>
        show countSubF pat (f + 1) (c :: cs) = countSubF pat (f₂ + 1) (c :: cs)
        rw [countSubF, countSubF]
        simp only [List.length_cons] at h1 h2
        have hd : (cs.drop (pat.length - 1)).length ≤ cs.length := by
          rw [List.length_drop]
          omega
        by_cases hp : pat.isPrefixOf (c :: cs)
        · rw [if_pos hp, if_pos hp, ih f₂ _ (by omega) (by omega)]
        · rw [if_neg hp, if_neg hp, ih f₂ _ (by omega) (by omega)]

theorem countSub_nil (pat : List Char) : countSub pat [] = 0 := rfl

theorem countSub_cons_pos (pat : List Char) (c : Char) (cs : List Char)
    (h : pat.isPrefixOf (c :: cs)) :
    countSub pat (c :: cs) = countSub pat (cs.drop (pat.length - 1)) + 1 := by
  show countSubF pat (c :: cs).length (c :: cs) = _
  rw [List.length_cons, countSubF, if_pos h]
  congr 1
  apply countSubF_le
  · rw [List.length_drop]; omega
  · exact Nat.le_refl _

theorem countSub_cons_neg (pat : List Char) (c : Char) (cs : List Char)
    (h : ¬ pat.isPrefixOf (c :: cs)) :
    countSub pat (c :: cs) = countSub pat cs := by
  show countSubF pat (c :: cs).length (c :: cs) = _
  rw [List.length_cons, countSubF, if_neg h]
  rfl

theorem replaceAllF_nil (pat rep : List Char) (fuel : Nat) :
    replaceAllF pat rep fuel [] = [] := by
  cases fuel <;> rfl

theorem replaceAllF_le (pat rep : List Char) :
    ∀ fuel₁ fuel₂ l, l.length ≤ fuel₁ → l.length ≤ fuel₂ →
      replaceAllF pat rep fuel₁ l = replaceAllF pat rep fuel₂ l := by
  intro fuel₁
  induction fuel₁ with
  | zero =>
    intro fuel₂ l h1 _
    have : l = [] := List.length_eq_zero.mp (Nat.le_zero.mp h1)
    subst this
    rw [replaceAllF_nil, replaceAllF_nil]
  | succ f ih =>
    intro fuel₂ l h1 h2
    match l with
    | [] => rw [replaceAllF_nil, replaceAllF_nil]
    | c :: cs =>
      match fuel₂, h2 with
      | f₂ + 1, h2 =>
        show replaceAllF pat rep (f + 1) (c :: cs) = replaceAllF pat rep (f₂ + 1) (c :: cs)
        rw [replaceAllF, replaceAllF]
        simp only [List.length_cons] at h1 h2
        have hd : (cs.drop (pat.length - 1)).length ≤ cs.length := by
          rw [List.length_drop]
          omega
        by_cases hp : pat.isPrefixOf (c :: cs)
        · rw [if_pos hp, if_pos hp, ih f₂ _ (by omega) (by omega)]
        · rw [if_neg hp, if_neg hp, ih f₂ _ (by omega) (by omega)]

theorem replaceAll_nil (pat rep : List Char) : replaceAll [] pat rep = [] := rfl

theorem replaceAll_cons_pos (pat rep : List Char) (c : Char) (cs : List Char)
    (h : pat.isPrefixOf (c :: cs)) :
    replaceAll (c :: cs) pat rep = rep ++ replaceAll (cs.drop (pat.length - 1)) pat rep := by
  show replaceAllF pat rep (c :: cs).length (c :: cs) = _
  rw [List.length_cons, replaceAllF, if_pos h]
  congr 1
  apply replaceAllF_le
  · rw [List.length_drop]; omega
  · exact Nat.le_refl _

theorem replaceAll_cons_neg (pat rep : List Char) (c : Char) (cs : List Char)
    (h : ¬ pat.isPrefixOf (c :: cs)) :
    replaceAll (c :: cs) pat rep = c :: replaceAll cs pat rep := by
  show replaceAllF pat rep (c :: cs).length (c :: cs) = _
  rw [List.length_cons, replaceAllF, if_neg h]
  rfl

theorem splitOnFirstF_nil (pat : List Char) (fuel : Nat) :
    splitOnFirstF pat fuel [] = none := by
  cases fuel <;> rfl

theorem splitOnFirstF_le (pat : List Char) :
    ∀ fuel₁ fuel₂ l, l.length ≤ fuel₁ → l.length ≤ fuel₂ →
      splitOnFirstF pat fuel₁ l = splitOnFirstF pat fuel₂ l := by
  intro fuel₁
  induction fuel₁ with
  | zero =>
    intro fuel₂ l h1 _
    have : l = [] := List.length_eq_zero.mp (Nat.le_zero.mp h1)
    subst this
    rw [splitOnFirstF_nil, splitOnFirstF_nil]
  | succ f ih =>
    intro fuel₂ l h1 h2
    match l with
    | [] => rw [splitOnFirstF_nil, splitOnFirstF_nil]
    | c :: cs =>
      match fuel₂, h2 with
      | f₂ + 1, h2 =>
        show splitOnFirstF pat (f + 1) (c :: cs) = splitOnFirstF pat (f₂ + 1) (c :: cs)
        rw [splitOnFirstF, splitOnFirstF]
        simp only [List.length_cons] at h1 h2
        by_cases hp : pat.isPrefixOf (c :: cs)
        · rw [if_pos hp, if_pos hp]
        · rw [if_neg hp, if_neg hp, ih f₂ _ (by omega) (by omega)]

theorem splitOnFirst_nil (pat : List Char) : splitOnFirst pat [] = none := rfl

theorem splitOnFirst_cons_pos (pat : List Char) (c : Char) (cs : List Char)
    (h : pat.isPrefixOf (c :: cs)) :
    splitOnFirst pat (c :: cs) = some ([], cs.drop (pat.length - 1)) := by
  show splitOnFirstF pat (c :: cs).length (c :: cs) = _
  rw [List.length_cons, splitOnFirstF, if_pos h]

theorem splitOnFirst_cons_neg (pat : List Char) (c : Char) (cs : List Char)
    (h : ¬ pat.isPrefixOf (c :: cs)) :
    splitOnFirst pat (c :: cs) =
      match splitOnFirst pat cs with
      | some (a, r) => some (c :: a, r)
      | none => none := by
  show splitOnFirstF pat (c :: cs).length (c :: cs) = _
  rw [List.length_cons, splitOnFirstF, if_neg h]
  rfl

/-! ### Generic lemmas about the string primitives -/
/-- The `countSub pat l = 0` exactly when `pat` is not a contiguous substring of
`l` (for non-empty `pat`). -/
theorem countSub_eq_zero_iff (pat : List Char) (hpat : pat ≠ []) (l : List Char) :
    countSub pat l = 0 ↔ ¬ pat <:+: l := by
  induction l with
  | nil =>
    simp only [countSub_nil, true_iff]
    intro h
    exact hpat (List.eq_nil_of_infix_nil h)
  | cons c cs ih =>
    by_cases h : pat.isPrefixOf (c :: cs)
    · rw [countSub_cons_pos pat c cs h]
      simp only [Nat.add_one_ne_zero, false_iff, not_not]
      exact (isPrefixOf_eq.mp h).isInfix
    · rw [countSub_cons_neg pat c cs h]
      rw [ih, List.infix_cons_iff]
      constructor
      · intro hni hor
        rcases hor with hp | hi
        · exact h (isPrefixOf_eq.mpr hp)
        · exact hni hi
      · intro hn hi
        exact hn (Or.inr hi)

theorem not_infix_of_countSub_zero {pat l : List Char} (hpat : pat ≠ [])
    (h : countSub pat l = 0) : ¬ pat <:+: l :=
  (countSub_eq_zero_iff pat hpat l).mp h

theorem countSub_zero_of_infix {pat a b : List Char} (hpat : pat ≠ [])
    (hab : a <:+: b) (h : countSub pat b = 0) : countSub pat a = 0 := by
  rw [countSub_eq_zero_iff pat hpat] at h ⊢
  intro hi
  exact h (hi.trans hab)

/-- Scanning through a region whose characters never occur in `pat` finds
nothing there and no occurrence can straddle its boundary. -/
theorem countSub_append_disj (pat : List Char) (hpat : pat ≠ []) (a b : List Char)
    (h : ∀ c ∈ a, c ∉ pat) :
    countSub pat (a ++ b) = countSub pat b := by
  induction a with
  | nil => simp
  | cons x a' ih =>
    have hx : ¬ pat.isPrefixOf (x :: (a' ++ b)) := by
      intro hp
      match pat, hpat with
      | p :: ps, _ =>
        have : p = x := by
          have := isPrefixOf_eq.mp hp
          rcases this with ⟨t, ht⟩
          have := congrArg (fun l => l.head?) ht
          simpa using this
        exact (h x (List.mem_cons_self x a')) (this ▸ List.mem_cons_self p ps)
    have : (x :: a') ++ b = x :: (a' ++ b) := rfl
    rw [this, countSub_cons_neg pat _ _ hx]
    exact ih (fun c hc => h c (List.mem_cons_of_mem x hc))

/-- An occurrence-free region followed by a "barrier" character not occurring
in `pat` contributes nothing to the count. -/
theorem countSub_append_barrier (pat : List Char) (hpat : pat ≠ []) (a : List Char)
    (c : Char) (b : List Char) (hc : c ∉ pat) (h0 : countSub pat a = 0) :
    countSub pat (a ++ c :: b) = countSub pat b := by
  induction a with
  | nil =>
    simp only [List.nil_append]
    have hx : ¬ pat.isPrefixOf (c :: b) := by
      intro hp
      match pat, hpat with
      | p :: ps, _ =>
        have : p = c := by
          rcases isPrefixOf_eq.mp hp with ⟨t, ht⟩
          have := congrArg (fun l => l.head?) ht
          simpa using this
        exact hc (this ▸ List.mem_cons_self p ps)
    rw [countSub_cons_neg pat _ _ hx]
  | cons x a' ih =>
    have hsplit : ¬ pat.isPrefixOf (x :: a') ∧ countSub pat a' = 0 := by
      by_cases hp : pat.isPrefixOf (x :: a')
      · rw [countSub_cons_pos pat _ _ hp] at h0
        exact absurd h0 (Nat.add_one_ne_zero _)
      · rw [countSub_cons_neg pat _ _ hp] at h0
        exact ⟨hp, h0⟩
    have hx : ¬ pat.isPrefixOf (x :: (a' ++ c :: b)) := by
      intro hp
      have hpre := isPrefixOf_eq.mp hp
      by_cases hlen : pat.length ≤ (x :: a').length
      · have : pat <+: (x :: a') := by
          have := (@List.isPrefix_append_of_length Char pat (x :: a') (c :: b) hlen).mp
          exact this (by simpa using hpre)
        exact hsplit.1 (isPrefixOf_eq.mpr this)
      · -- the supposed occurrence would straddle the barrier, so `c ∈ pat`
        push_neg at hlen
        have hceq : pat = (x :: a') ++ List.take (pat.length - (x :: a').length) (c :: b) := by
          have h1 : pat = List.take pat.length ((x :: a') ++ c :: b) :=
            List.prefix_iff_eq_take.mp (by simpa using hpre)
          rw [List.take_append_eq_append_take] at h1
          rwa [List.take_of_length_le (Nat.le_of_lt hlen)] at h1
        have : c ∈ pat := by
          rw [hceq]
          have hpos : 0 < pat.length - (x :: a').length := Nat.sub_pos_of_lt hlen
          have : List.take (pat.length - (x :: a').length) (c :: b) =
              c :: List.take (pat.length - (x :: a').length - 1) b := by
            cases hk : pat.length - (x :: a').length with
            | zero => omega
            | succ k => simp
          rw [this]
          exact List.mem_append_right _ (List.mem_cons_self _ _)
        exact hc this
    have : (x :: a') ++ c :: b = x :: (a' ++ c :: b) := rfl
    rw [this, countSub_cons_neg pat _ _ hx]
    exact ih hsplit.2

theorem countSub_self_append (pat : List Char) (hpat : pat ≠ []) (b : List Char) :
    countSub pat (pat ++ b) = countSub pat b + 1 := by
  match pat, hpat with
  | p :: ps, _ =>
    have hpre : (p :: ps).isPrefixOf ((p :: ps) ++ b) :=
      isPrefixOf_eq.mpr (List.prefix_append _ _)
    have : (p :: ps) ++ b = p :: (ps ++ b) := rfl
    rw [this] at hpre ⊢
    rw [countSub_cons_pos _ _ _ hpre]
    congr 2
    simp [List.drop_left]

/-- If `pat` does not occur inside non-empty `x`, it is not a prefix of
`x ++ pat ++ r` (its first occurrence there is exactly at offset `x.length`). -/
theorem not_isPrefixOf_append_pat (pat : List Char) (hno : NoBorder pat)
    (x : List Char) (hx : ¬ pat <:+: x) (hxne : x ≠ []) (r : List Char) :
    ¬ pat.isPrefixOf (x ++ pat ++ r) := by
  intro hp
  have hpre : pat <+: x ++ (pat ++ r) := by
    have := isPrefixOf_eq.mp hp
    simpa [List.append_assoc] using this
  by_cases hlen : pat.length ≤ x.length
  · exact hx ((List.isPrefix_append_of_length hlen).mp hpre).isInfix
  · push_neg at hlen
    have h1 : pat = List.take pat.length (x ++ (pat ++ r)) :=
      List.prefix_iff_eq_take.mp hpre
    rw [List.take_append_eq_append_take, List.take_of_length_le (Nat.le_of_lt hlen)] at h1
    have h2 : List.take (pat.length - x.length) (pat ++ r) =
        List.take (pat.length - x.length) pat := by
      apply List.take_append_of_le_length
      omega
    rw [h2] at h1
    have h3 : pat.drop x.length = pat.take (pat.length - x.length) := by
      conv_lhs => rw [h1]
      simp [List.drop_left]
    have hxpos : 0 < x.length := List.length_pos.mpr hxne
    exact hno x.length hxpos hlen h3

/-- The first occurrence of a border-free pattern in `x ++ pat ++ r`, with no
occurrence inside `x`, is the literal copy: `splitOnFirst` finds exactly it. -/
theorem splitOnFirst_exact (pat : List Char) (hpat : pat ≠ []) (hno : NoBorder pat)
    (x : List Char) (hx : ¬ pat <:+: x) (r : List Char) :
    splitOnFirst pat (x ++ pat ++ r) = some (x, r) := by
  induction x with
  | nil =>
    match pat, hpat with
    | p :: ps, _ =>
      have hpre : (p :: ps).isPrefixOf (p :: (ps ++ r)) := by
        apply isPrefixOf_eq.mpr
        exact List.cons_prefix_cons.mpr ⟨rfl, List.prefix_append ps r⟩
      have he : ([] : List Char) ++ (p :: ps) ++ r = p :: (ps ++ r) := rfl
      rw [he]
      rw [splitOnFirst_cons_pos _ _ _ hpre]
      have hl : (p :: ps).length - 1 = ps.length := by simp
      rw [hl, List.drop_left]
  | cons c x' ih =>
    have hnp : ¬ pat.isPrefixOf ((c :: x') ++ pat ++ r) :=
      not_isPrefixOf_append_pat pat hno (c :: x') hx (by simp) r
    have he : (c :: x') ++ pat ++ r = c :: (x' ++ pat ++ r) := by simp
    rw [he] at hnp ⊢
    rw [splitOnFirst_cons_neg _ _ _ hnp]
    have hx' : ¬ pat <:+: x' := fun hi => hx (hi.trans (List.suffix_cons c x').isInfix)
    rw [ih hx']

/-- Decomposition produced by `splitOnFirst`. -/
theorem splitOnFirst_parts (pat : List Char) (hpat : pat ≠ []) :
    ∀ l a r, splitOnFirst pat l = some (a, r) → l = a ++ pat ++ r := by
  intro l
  induction l with
  | nil => intro a r h; rw [splitOnFirst_nil] at h; exact absurd h (by simp)
  | cons c cs ih =>
    intro a r h
    by_cases hp : pat.isPrefixOf (c :: cs)
    · rw [splitOnFirst_cons_pos _ _ _ hp] at h
      have ha : a = [] := by
        have := congrArg (fun o => Option.map Prod.fst o) h
        simpa using this.symm
      have hr : r = cs.drop (pat.length - 1) := by
        have := congrArg (fun o => Option.map Prod.snd o) h
        simpa using this.symm
      subst ha
      subst hr
      rcases isPrefixOf_eq.mp hp with ⟨t, ht⟩
      have hlen : 0 < pat.length := List.length_pos.mpr hpat
      have hdrop : cs.drop (pat.length - 1) = t := by
        have h1 : (c :: cs).drop pat.length = t := by
          rw [← ht, List.drop_left]
        have h2 : (c :: cs).drop pat.length = cs.drop (pat.length - 1) := by
          cases hk : pat.length with
          | zero => omega
          | succ k => simp
        rw [← h2, h1]
      rw [hdrop, List.nil_append, ht]
    · rw [splitOnFirst_cons_neg _ _ _ hp] at h
      cases hs : splitOnFirst pat cs with
      | none => rw [hs] at h; exact absurd h (by simp)
      | some pr =>
        obtain ⟨a0, r0⟩ := pr
        rw [hs] at h
        have ha : a = c :: a0 := by
          have := congrArg (fun o => Option.map Prod.fst o) h
          simpa using this.symm
        have hr : r = r0 := by
          have := congrArg (fun o => Option.map Prod.snd o) h
          simpa using this.symm
        subst ha
        subst hr
        have := ih a0 r hs
        simp [this]

theorem splitOnFirst_length (pat : List Char) (hpat : pat ≠ []) (l a r : List Char)
    (h : splitOnFirst pat l = some (a, r)) :
    l.length = a.length + pat.length + r.length := by
  have := splitOnFirst_parts pat hpat l a r h
  subst this
  simp
  omega

/-- If the replacement text starts with a character not occurring in `u`,
then a prefix `u` of the replaced string must already have been a prefix of
the original string. -/
theorem prefix_through_replaceAll (pat rep : List Char) :
    ∀ t u, (∃ rc rcs, rep = rc :: rcs ∧ rc ∉ u) → u ≠ [] →
      u.isPrefixOf (replaceAll t pat rep) → u.isPrefixOf t := by
  intro t
  induction t with
  | nil =>
    intro u _ hu h
    rw [replaceAll_nil] at h
    match u, hu with
    | u0 :: u', _ => simp [List.isPrefixOf] at h
  | cons c cs ih =>
    intro u hrep hu h
    by_cases hp : pat.isPrefixOf (c :: cs)
    · rw [replaceAll_cons_pos _ _ _ _ hp] at h
      obtain ⟨rc, rcs, hr, hrc⟩ := hrep
      match u, hu with
      | u0 :: u', _ =>
        rw [hr] at h
        have : u0 = rc := by
          have := isPrefixOf_eq.mp h
          rcases this with ⟨t', ht'⟩
          have := congrArg (fun l => l.head?) ht'
          simpa using this
        exact absurd (this ▸ List.mem_cons_self u0 u') hrc
    · rw [replaceAll_cons_neg _ _ _ _ hp] at h
      match u, hu with
      | u0 :: u', _ =>
        have hcons := isPrefixOf_eq.mp h
        rcases List.cons_prefix_cons.mp hcons with ⟨he, htail⟩
        subst he
        by_cases hu' : u' = []
        · subst hu'
          exact isPrefixOf_eq.mpr (List.cons_prefix_cons.mpr ⟨rfl, List.nil_prefix⟩)
        · obtain ⟨rc, rcs, hr, hrc⟩ := hrep
          have hrep' : ∃ rc' rcs', rep = rc' :: rcs' ∧ rc' ∉ u' :=
            ⟨rc, rcs, hr, fun hm => hrc (List.mem_cons_of_mem _ hm)⟩
          have := ih u' hrep' hu' (isPrefixOf_eq.mpr htail)
          exact isPrefixOf_eq.mpr
            (List.cons_prefix_cons.mpr ⟨rfl, isPrefixOf_eq.mp this⟩)

/-- After `replaceAll`, no occurrence of the pattern remains, provided the
replacement contains no occurrence and its two edge characters are foreign to
the pattern (so no occurrence can straddle the seams). -/
theorem countSub_replaceAll_eq_zero (pat rep : List Char) (hpat : pat ≠ [])
    (hrep0 : countSub pat rep = 0)
    (hfirst : ∃ rc rcs, rep = rc :: rcs ∧ rc ∉ pat)
    (hlast : ∃ lc, rep.getLast? = some lc ∧ lc ∉ pat) :
    ∀ n t, t.length ≤ n → countSub pat (replaceAll t pat rep) = 0 := by
  intro n
  induction n with
  | zero =>
    intro t ht
    have : t = [] := List.length_eq_zero.mp (Nat.le_zero.mp ht)
    subst this
    rw [replaceAll_nil]
    exact countSub_nil pat
  | succ n ih =>
    intro t ht
    match t with
    | [] => rw [replaceAll_nil]; exact countSub_nil pat
    | c :: cs =>
      by_cases hp : pat.isPrefixOf (c :: cs)
      · rw [replaceAll_cons_pos _ _ _ _ hp]
        obtain ⟨lc, hlc, hlcni⟩ := hlast
        have hrepne : rep ≠ [] := by
          intro h
          rw [h] at hlc
          simp at hlc
        have hstruct : rep = rep.dropLast ++ [lc] := by
          have h1 := List.dropLast_append_getLast hrepne
          have h2 : rep.getLast hrepne = lc := by
            have h3 := List.getLast?_eq_getLast rep hrepne
            rw [h3] at hlc
            exact Option.some_injective _ hlc
          rw [h2] at h1
          exact h1.symm
        have hdl0 : countSub pat rep.dropLast = 0 :=
          countSub_zero_of_infix hpat ( List.dropLast_prefix rep).isInfix hrep0
        generalize hX : replaceAll (cs.drop (pat.length - 1)) pat rep = X
        rw [hstruct, List.append_assoc, List.singleton_append]
        rw [countSub_append_barrier pat hpat _ lc _ hlcni hdl0]
        rw [← hX]
        apply ih
        have := List.length_drop (pat.length - 1) cs
        simp only [List.length_cons] at ht
        omega
      · rw [replaceAll_cons_neg _ _ _ _ hp]
        by_cases hp2 : pat.isPrefixOf (c :: replaceAll cs pat rep)
        · exfalso
          have heq : c :: replaceAll cs pat rep = replaceAll (c :: cs) pat rep :=
            (replaceAll_cons_neg _ _ _ _ hp).symm
          rw [heq] at hp2
          exact hp (prefix_through_replaceAll pat rep (c :: cs) pat hfirst hpat hp2)
        · rw [countSub_cons_neg pat _ _ hp2]
          apply ih
          simp only [List.length_cons] at ht
          omega

/-- The `replaceAll` does nothing when the pattern does not occur. -/
theorem replaceAll_no_op (pat rep : List Char) :
    ∀ t, countSub pat t = 0 → replaceAll t pat rep = t := by
  intro t
  induction t with
  | nil => intro _; rw [replaceAll_nil]
  | cons c cs ih =>
    intro h
    by_cases hp : pat.isPrefixOf (c :: cs)
    · rw [countSub_cons_pos pat _ _ hp] at h
      exact absurd h (Nat.add_one_ne_zero _)
    · rw [countSub_cons_neg pat _ _ hp] at h
      rw [replaceAll_cons_neg _ _ _ _ hp, ih h]

theorem pyIn_iff_infix (needle : List Char) :
    ∀ hay, pyIn needle hay = true ↔ needle <:+: hay := by
  intro hay
  induction hay with
  | nil =>
    simp only [pyIn, List.isEmpty_iff]
    constructor
    · intro h; simp [h]
    · intro h; exact List.eq_nil_of_infix_nil h
  | cons c t ih =>
    simp only [pyIn, Bool.or_eq_true, List.infix_cons_iff, ih]
    constructor
    · rintro (hp | hi)
      · exact Or.inl (isPrefixOf_eq.mp hp)
      · exact Or.inr hi
    · rintro (hp | hi)
      · exact Or.inl (isPrefixOf_eq.mpr hp)
      · exact Or.inr hi

theorem matchHere_nil : matchHere [] = none := by decide

theorem matchHere_rest_lt (s content rest : List Char)
    (h : matchHere s = some (content, rest)) : rest.length < s.length := by
  by_cases h1 : openerM.isPrefixOf s
  · rw [matchHere, if_pos h1] at h
    split at h
    · split at h
      · rename_i body rest' hs
        have hr : rest' = rest := by
          have := congrArg (fun o => Option.map Prod.snd o) h
          simpa using this
        subst hr
        have hlen := splitOnFirst_length closerM (by simp [closerM]) _ _ _ hs
        have h6 : 6 ≤ s.length := by
          have := List.IsPrefix.length_le (isPrefixOf_eq.mp h1)
          simpa [openerM] using this
        have hd1 : ((s.drop 6).drop (nlDropCount ((s.drop 6).takeWhile pyIsSpace))).length ≤
            s.length - 6 := by
          simp only [List.length_drop]
          omega
        simp only [closerM, List.length] at hlen
        omega
      · exact absurd h (by simp)
    · exact absurd h (by simp)
  · rw [matchHere] at h
    simp [h1] at h

theorem convert_code_block_eq (code : List Char) (language : String) :
    convert_code_block code language =
      fenceM ++ language.toList ++ '\n' :: code ++ '\n' :: fenceM := by
  rw [convert_code_block]
  by_cases h : language = ""
  · subst h
    simp
  · simp [h]

theorem find_code_blocksF_nil (fuel : Nat) : find_code_blocksF fuel [] = [] := by
  cases fuel <;> rfl

theorem rewriteBlocksF_nil (filename : String) (fm : List (String × String)) (fuel : Nat) :
    rewriteBlocksF filename fm fuel [] = [] := by
  cases fuel <;> rfl

theorem find_code_blocksF_le :
    ∀ fuel₁ fuel₂ l, l.length ≤ fuel₁ → l.length ≤ fuel₂ →
      find_code_blocksF fuel₁ l = find_code_blocksF fuel₂ l := by
  intro fuel₁
  induction fuel₁ with
  | zero =>
    intro fuel₂ l h1 _
    have : l = [] := List.length_eq_zero.mp (Nat.le_zero.mp h1)
    subst this
    rw [find_code_blocksF_nil, find_code_blocksF_nil]
  | succ f ih =>
    intro fuel₂ l h1 h2
    match l with
    | [] => rw [find_code_blocksF_nil, find_code_blocksF_nil]
    | c :: cs =>
      match fuel₂, h2 with
      | f₂ + 1, h2 =>
        show find_code_blocksF (f + 1) (c :: cs) = find_code_blocksF (f₂ + 1) (c :: cs)
        rw [find_code_blocksF, find_code_blocksF]
        simp only [List.length_cons] at h1 h2
        cases hm : matchHere (c :: cs) with
        | some pr =>
          obtain ⟨content, rest⟩ := pr
          have hlt := matchHere_rest_lt _ _ _ hm
          simp only [List.length_cons] at hlt
          dsimp only
          rw [ih f₂ rest (by omega) (by omega)]
        | none =>
          dsimp only
          rw [ih f₂ cs (by omega) (by omega)]

theorem rewriteBlocksF_le (filename : String) (fm : List (String × String)) :
    ∀ fuel₁ fuel₂ l, l.length ≤ fuel₁ → l.length ≤ fuel₂ →
      rewriteBlocksF filename fm fuel₁ l = rewriteBlocksF filename fm fuel₂ l := by
  intro fuel₁
  induction fuel₁ with
  | zero =>
    intro fuel₂ l h1 _
    have : l = [] := List.length_eq_zero.mp (Nat.le_zero.mp h1)
    subst this
    rw [rewriteBlocksF_nil, rewriteBlocksF_nil]
  | succ f ih =>
    intro fuel₂ l h1 h2
    match l with
    | [] => rw [rewriteBlocksF_nil, rewriteBlocksF_nil]
    | c :: cs =>
      match fuel₂, h2 with
      | f₂ + 1, h2 =>
        show rewriteBlocksF filename fm (f + 1) (c :: cs) =
          rewriteBlocksF filename fm (f₂ + 1) (c :: cs)
        rw [rewriteBlocksF, rewriteBlocksF]
        simp only [List.length_cons] at h1 h2
        cases hm : matchHere (c :: cs) with
        | some pr =>
          obtain ⟨content, rest⟩ := pr
          have hlt := matchHere_rest_lt _ _ _ hm
          simp only [List.length_cons] at hlt
          dsimp only
          rw [ih f₂ rest (by omega) (by omega)]
        | none =>
          dsimp only
          rw [ih f₂ cs (by omega) (by omega)]

theorem find_code_blocks_nil : find_code_blocks [] = [] := rfl

theorem find_code_blocks_match (doc content rest : List Char)
    (h : matchHere doc = some (content, rest)) :
    find_code_blocks doc = content :: find_code_blocks rest := by
  match doc with
  | [] => rw [matchHere_nil] at h; exact absurd h (by simp)
  | c :: cs =>
    show find_code_blocksF (c :: cs).length (c :: cs) = _
    rw [List.length_cons, find_code_blocksF, h]
    have hlt := matchHere_rest_lt _ _ _ h
    simp only [List.length_cons] at hlt
    dsimp only
    rw [find_code_blocksF_le cs.length rest.length rest (by omega) (by omega)]
    rfl

theorem find_code_blocks_cons_none (c : Char) (cs : List Char)
    (h : matchHere (c :: cs) = none) :
    find_code_blocks (c :: cs) = find_code_blocks cs := by
  show find_code_blocksF (c :: cs).length (c :: cs) = _
  rw [List.length_cons, find_code_blocksF, h]
  dsimp only
  rfl

theorem rewriteBlocks_nil (filename : String) (fm : List (String × String)) :
    rewriteBlocks filename fm [] = [] := rfl

theorem rewriteBlocks_match (filename : String) (fm : List (String × String))
    (doc content rest : List Char) (h : matchHere doc = some (content, rest)) :
    rewriteBlocks filename fm doc =
      convert_code_block content (detect_language (String.mk content) filename fm) ++
        rewriteBlocks filename fm rest := by
  match doc with
  | [] => rw [matchHere_nil] at h; exact absurd h (by simp)
  | c :: cs =>
    show rewriteBlocksF filename fm (c :: cs).length (c :: cs) = _
    rw [List.length_cons, rewriteBlocksF, h]
    have hlt := matchHere_rest_lt _ _ _ h
    simp only [List.length_cons] at hlt
    dsimp only
    rw [rewriteBlocksF_le filename fm cs.length rest.length rest (by omega) (by omega)]
    rfl

theorem rewriteBlocks_cons_none (filename : String) (fm : List (String × String))
    (c : Char) (cs : List Char) (h : matchHere (c :: cs) = none) :
    rewriteBlocks filename fm (c :: cs) = c :: rewriteBlocks filename fm cs := by
  show rewriteBlocksF filename fm (c :: cs).length (c :: cs) = _
  rw [List.length_cons, rewriteBlocksF, h]
  dsimp only
  rfl

/-! ## Claims about the Content Classifier (C3, C4, C5) -/
theorem patternScore_nil (pats : List RePattern) : patternScore pats [] = 0 := by
  simp [patternScore]

/-- C5: for every snippet whose first non-blank line matches the timestamp
marker pattern, `detect_language_from_content` returns the plain-text label
`text`, regardless of what the rest of the snippet contains. -/
theorem claim_c5_timestamp_is_text (code : String) (l : List Char) (rest : List (List Char))
    (hl : codeLines code = l :: rest) (hm : reSearch timestampPattern l = true) :
    detect_language_from_content code = some "text" := by
  have ht : textTriggered (l :: rest) = true := by
    rw [textTriggered]
    apply List.any_eq_true.mpr
    refine ⟨timestampPattern, by simp [TEXT_PATTERNS], ?_⟩
    apply List.any_eq_true.mpr
    exact ⟨l, by simp, hm⟩
  rw [detect_language_from_content, hl]
  simp [ht]

/-- C5 witness: a snippet starting with a timestamp line classifies as plain
text even though the following lines match several Python idiom patterns. -/
theorem claim_c5_witness :
    detect_language_from_content "2024-01-01 10:00 run\nimport os\ndef f(x):\n  return x"
      = some "text" :=
  claim_c5_timestamp_is_text _ "2024-01-01 10:00 run".toList
    ["import os".toList, "def f(x):".toList, "  return x".toList] (by decide) (by decide)

/-- C3 counterexample: a snippet consisting of the single line
`2024-01-01 10:00` has fewer than 2 matching idiom patterns for every
candidate language, yet the Content Classifier returns the plain-text label
`text`, not none — the claim as stated ignores the plain-output check. -/
theorem claim_c3_counterexample :
    detect_language_from_content "2024-01-01 10:00" ≠ none ∧
    patternScore PYTHON_PATTERNS (codeLines "2024-01-01 10:00") < 2 ∧
    patternScore RUST_PATTERNS (codeLines "2024-01-01 10:00") < 2 ∧
    patternScore BASH_PATTERNS (codeLines "2024-01-01 10:00") < 2 := by
  refine ⟨?_, ?_, ?_, ?_⟩ <;> decide

/-- C3 (amended): for every snippet that does not trigger the plain-output
check and in which fewer than 2 distinct idiom patterns of each candidate
language have a matching non-blank line, the Content Classifier returns
none. -/
theorem claim_c3_low_scores_none (code : String)
    (htext : textTriggered (codeLines code) = false)
    (hp : patternScore PYTHON_PATTERNS (codeLines code) < 2)
    (hr : patternScore RUST_PATTERNS (codeLines code) < 2)
    (hb : patternScore BASH_PATTERNS (codeLines code) < 2) :
    detect_language_from_content code = none := by
  rw [detect_language_from_content]
  cases hls : codeLines code with
  | nil => simp
  | cons l rest =>
    rw [hls] at htext hp hr hb
    simp only [htext, reduceCtorEq, if_false, Bool.false_eq_true]
    split
    · rename_i hm
      exfalso
      simp only [pyMaxBySecond, List.foldl] at hm
      split_ifs at hm <;> omega
    · rfl

/-- C3 (amended) witness: two stray shell-looking lines each matching one
distinct pattern per language at most. -/
theorem claim_c3_witness :
    detect_language_from_content "echo hi\nls -la" = none :=
  claim_c3_low_scores_none "echo hi\nls -la" (by decide) (by decide) (by decide) (by decide)

/-- C4: for every snippet that does not trigger the plain-output check, the
Content Classifier returns the candidate language of highest score (counting
distinct matched idiom patterns) when that score is at least 2, ties resolved
by the fixed priority python, rust, then shell (whose label in the source is
`bash`): python wins any tie, rust needs only to strictly beat python, the
shell category must strictly beat both. -/
theorem claim_c4_highest_score_wins (code : String)
    (htext : textTriggered (codeLines code) = false) :
    (2 ≤ patternScore PYTHON_PATTERNS (codeLines code) →
      patternScore RUST_PATTERNS (codeLines code) ≤
        patternScore PYTHON_PATTERNS (codeLines code) →
      patternScore BASH_PATTERNS (codeLines code) ≤
        patternScore PYTHON_PATTERNS (codeLines code) →
      detect_language_from_content code = some "python") ∧
    (2 ≤ patternScore RUST_PATTERNS (codeLines code) →
      patternScore PYTHON_PATTERNS (codeLines code) <
        patternScore RUST_PATTERNS (codeLines code) →
      patternScore BASH_PATTERNS (codeLines code) ≤
        patternScore RUST_PATTERNS (codeLines code) →
      detect_language_from_content code = some "rust") ∧
    (2 ≤ patternScore BASH_PATTERNS (codeLines code) →
      patternScore PYTHON_PATTERNS (codeLines code) <
        patternScore BASH_PATTERNS (codeLines code) →
      patternScore RUST_PATTERNS (codeLines code) <
        patternScore BASH_PATTERNS (codeLines code) →
      detect_language_from_content code = some "bash") := by
  refine ⟨?_, ?_, ?_⟩ <;> intro h1 h2 h3 <;> rw [detect_language_from_content] <;>
    cases hls : codeLines code
  case _ => rw [hls, patternScore_nil] at h1; omega
  case _ l rest =>
    rw [hls] at htext h1 h2 h3
    simp only [htext, reduceCtorEq, if_false, Bool.false_eq_true]
    simp only [pyMaxBySecond, List.foldl]
    split_ifs <;> first | rfl | (exfalso; omega)
  case _ => rw [hls, patternScore_nil] at h1; omega
  case _ l rest =>
    rw [hls] at htext h1 h2 h3
    simp only [htext, reduceCtorEq, if_false, Bool.false_eq_true]
    simp only [pyMaxBySecond, List.foldl]
    split_ifs <;> first | rfl | (exfalso; omega)
  case _ => rw [hls, patternScore_nil] at h1; omega
  case _ l rest =>
    rw [hls] at htext h1 h2 h3
    simp only [htext, reduceCtorEq, if_false, Bool.false_eq_true]
    simp only [pyMaxBySecond, List.foldl]
    split_ifs <;> first | rfl | (exfalso; omega)

/-- C4 witness: a snippet matching two distinct Python idiom patterns and one
Rust pattern classifies as python. -/
theorem claim_c4_witness :
    detect_language_from_content "import os\nfrom a import b\nlet x = 1;" = some "python" :=
  (claim_c4_highest_score_wins "import os\nfrom a import b\nlet x = 1;" (by decide)).1
    (by decide) (by decide) (by decide)

/-! ## Claims about the Document Converter (C1, C2, C9) -/
/-- C9: a post record whose publish-status field is not `publish` yields no
migrated record at all — no output file content, no entry contributed to the
Redirect Map — and the loop of `main` continues over the remaining records
exactly as if the record were absent (everything is total, no error is
raised). -/
theorem claim_c9_nonpublish_skipped (handle unesc : String → String) (it : WpItem)
    (h : it.status ≠ some "publish") :
    migrate_post handle unesc it = none ∧
    (∀ pre post : List WpItem,
      migrateAll handle unesc (pre ++ it :: post) = migrateAll handle unesc (pre ++ post)) ∧
    (∀ pre post : List WpItem,
      create_redirect_map (migrateAll handle unesc (pre ++ it :: post)) =
        create_redirect_map (migrateAll handle unesc (pre ++ post))) := by
  have h1 : migrate_post handle unesc it = none := by
    rw [migrate_post]
    simp [h]
  have h2 : ∀ pre post : List WpItem,
      migrateAll handle unesc (pre ++ it :: post) = migrateAll handle unesc (pre ++ post) := by
    intro pre post
    rw [migrateAll, migrateAll, List.filterMap_append, List.filterMap_append,
      List.filterMap_cons, h1]
  exact ⟨h1, h2, fun pre post => congrArg create_redirect_map (h2 pre post)⟩

/-- C9 witness: the record with status `draft` is skipped and contributes no
redirect entry. -/
theorem claim_c9_witness :
    migrate_post id id exampleDraft = none ∧
    migrateAll id id ([] ++ exampleDraft :: []) = migrateAll id id ([] ++ []) ∧
    create_redirect_map (migrateAll id id ([] ++ exampleDraft :: [])) =
      create_redirect_map (migrateAll id id ([] ++ [])) := by
  have h := claim_c9_nonpublish_skipped id id exampleDraft (by decide)
  exact ⟨h.1, h.2.1 [] [], h.2.2 [] []⟩

/-- C1: for a successfully migrated post record (publish status, non-empty
canonical URL and slug, resolvable date), the Redirect Map records exactly one
entry for the record, mapping its canonical URL with trailing slashes stripped
to `/blog/<converted date>-<slug>/`. -/
theorem claim_c1_redirect_entry (handle unesc : String → String) (it : WpItem)
    (l s : String)
    (hstatus : it.status = some "publish")
    (hlink : it.link = some l) (hl : l ≠ "")
    (hslug : it.slug = some s) (hs : s ≠ "")
    (hdate : convert_date it.postDate ≠ "") :
    create_redirect_map (migrateAll handle unesc [it]) =
      [(pyRstripSlash l, "/blog/" ++ convert_date it.postDate ++ "-" ++ s ++ "/")] := by
  have hmig : ∃ m : MigratedPost, migrate_post handle unesc it = some m ∧
      m.link = some l ∧ m.slug = some s ∧ m.date = convert_date it.postDate := by
    rw [migrate_post]
    simp only [hstatus, ne_eq, not_true_eq_false, if_false, reduceIte]
    exact ⟨_, rfl, hlink, hslug, rfl⟩
  obtain ⟨m, hm, hml, hms, hmd⟩ := hmig
  rw [migrateAll, List.filterMap_cons, hm, List.filterMap_nil]
  rw [create_redirect_map, List.foldl_cons, List.foldl_nil]
  have htl : optTruthy m.link = true := by rw [hml, optTruthy]; simpa using hl
  have hts : optTruthy m.slug = true := by rw [hms, optTruthy]; simpa using hs
  simp only [htl, hts, and_self, if_true, hmd, hml, hms, pyStr]
  rw [if_pos hdate, dictInsert]
  simp only [List.any_nil, Bool.false_eq_true, if_false, List.nil_append]
  have h1 : optTruthy (some l) = true := by rw [optTruthy]; simpa using hl
  have h2 : optTruthy (some s) = true := by rw [optTruthy]; simpa using hs
  rw [if_pos ⟨h1, h2⟩]
  simp [String.append_assoc]

/-- C1 witness: the example record maps its original URL (trailing slash
stripped) to `/blog/2021-07-08-hello-world/`. -/
theorem claim_c1_witness :
    create_redirect_map (migrateAll id id [exampleHelloPost]) =
      [("https://caricio.com/hello-world", "/blog/2021-07-08-hello-world/")] := by
  have h := claim_c1_redirect_entry id id exampleHelloPost
    "https://caricio.com/hello-world/" "hello-world"
    (by decide) (by decide) (by decide) (by decide) (by decide) (by decide)
  rw [h]
  decide

/-- C2 counterexample: for the category label `C++` the taxonomy entry written
is `c__` — characters outside the permitted set are replaced by underscores,
not dropped as the claim states (`c`), and the entry contains an underscore
that is not a character of the lowercased hyphenated label. -/
theorem claim_c2_counterexample :
    categoriesOf exampleCppPost = ["c__"] ∧
    specSlugifyLabel "C++" = "c" ∧
    ("c__" : String) ≠ "c" ∧
    '_' ∈ (slugifyLabel "C++").toList ∧
    '_' ∉ pyLowerL "C++".toList := by
  refine ⟨?_, ?_, ?_, ?_, ?_⟩ <;> decide

theorem slugifyLabel_chars (nm : String) :
    ∀ c ∈ (slugifyLabel nm).toList,
      (pyIsWordChar c || c = '-' || c = '_' || c = '.') = true := by
  intro c hc
  rw [slugifyLabel, sanitize_filename] at hc
  have : ∀ l : List Char, (String.mk l).toList = l := fun l => rfl
  rw [this] at hc
  rcases List.mem_map.mp hc with ⟨c', _, heq⟩
  by_cases hp : (pyIsWordChar c' || c' = '-' || c' = '_' || c' = '.') = true
  · rw [if_pos hp] at heq
    rwa [← heq]
  · rw [if_neg hp] at heq
    rw [← heq]
    decide

/-- C2 (amended): every taxonomy entry written to the front matter of the
Document of a published record is its label processed by `slugifyLabel`
(lowercase, spaces to hyphens, `sanitize_filename`); every character outside
the permitted class is replaced by an underscore — itself permitted — so the
entry consists solely of permitted characters, though it may contain
underscores that were not characters of the lowercased hyphenated label. -/
theorem claim_c2_amended (it : WpItem) (entry : String)
    (h : entry ∈ categoriesOf it ∨ entry ∈ tagsOf it) :
    (∃ cat ∈ it.categories, ∃ nm : String, cat.text = some nm ∧ entry = slugifyLabel nm) ∧
    ∀ c ∈ entry.toList, (pyIsWordChar c || c = '-' || c = '_' || c = '.') = true := by
  have hsrc : ∃ cat ∈ it.categories, ∃ nm : String,
      cat.text = some nm ∧ entry = slugifyLabel nm := by
    rcases h with h | h
    · rcases List.mem_filterMap.mp h with ⟨cat, hmem, hf⟩
      refine ⟨cat, hmem, ?_⟩
      by_cases hd : cat.domain = some "category"
      · rw [if_pos hd] at hf
        match htext : cat.text with
        | some nm =>
          rw [htext] at hf
          dsimp only at hf
          by_cases hcond : nm ≠ "" ∧ nm ≠ "Uncategorized"
          · rw [if_pos hcond] at hf
            exact ⟨nm, rfl, (Option.some_injective _ hf).symm⟩
          · rw [if_neg hcond] at hf
            exact absurd hf (by simp)
        | none => rw [htext] at hf; exact absurd hf (by simp)
      · rw [if_neg hd] at hf
        exact absurd hf (by simp)
    · rcases List.mem_filterMap.mp h with ⟨cat, hmem, hf⟩
      refine ⟨cat, hmem, ?_⟩
      by_cases hd : cat.domain = some "post_tag"
      · rw [if_pos hd] at hf
        match htext : cat.text with
        | some nm =>
          rw [htext] at hf
          dsimp only at hf
          by_cases hcond : nm ≠ ""
          · rw [if_pos hcond] at hf
            exact ⟨nm, rfl, (Option.some_injective _ hf).symm⟩
          · rw [if_neg hcond] at hf
            exact absurd hf (by simp)
        | none => rw [htext] at hf; exact absurd hf (by simp)
      · rw [if_neg hd] at hf
        exact absurd hf (by simp)
  refine ⟨hsrc, ?_⟩
  obtain ⟨cat, _, nm, _, hentry⟩ := hsrc
  rw [hentry]
  exact slugifyLabel_chars nm

/-- C2 (amended) witness: the `C++` category entry `c__` comes from
`slugifyLabel` and consists solely of permitted characters. -/
theorem claim_c2_amended_witness :
    (∃ cat ∈ exampleCppPost.categories, ∃ nm : String,
      cat.text = some nm ∧ "c__" = slugifyLabel nm) ∧
    ∀ c ∈ ("c__" : String).toList,
      (pyIsWordChar c || c = '-' || c = '_' || c = '.') = true :=
  claim_c2_amended exampleCppPost "c__" (Or.inl (by decide))

/-! ## Claim about gist inlining (C10) -/
theorem toList_append (a b : String) : (a ++ b).toList = a.toList ++ b.toList := rfl

theorem gistBlockMd_head (b : GistCodeBlock) :
    ∃ t, (gistBlockMd b).toList = btick :: t := by
  have h3 : ("```" : String).toList = [btick, btick, btick] := by decide
  rw [gistBlockMd]
  by_cases h : b.language ≠ ""
  · rw [if_pos h]
    refine ⟨btick :: btick :: (b.language ++ "\n" ++ b.content ++ "\n```\n").toList, ?_⟩
    rw [show ("```" ++ b.language ++ "\n" ++ b.content ++ "\n```\n" : String) =
        "```" ++ (b.language ++ "\n" ++ b.content ++ "\n```\n") from by
      simp [String.append_assoc]]
    rw [toList_append, h3]
    rfl
  · rw [if_neg h]
    refine ⟨btick :: btick :: '\n' :: (b.content ++ "\n```\n").toList, ?_⟩
    rw [show ("```\n" ++ b.content ++ "\n```\n" : String) =
        "```\n" ++ (b.content ++ "\n```\n") from by simp [String.append_assoc]]
    rw [toList_append]
    rw [show ("```\n" : String).toList = [btick, btick, btick, '\n'] from by decide]
    rfl

theorem gistBlockMd_last (b : GistCodeBlock) :
    (gistBlockMd b).toList.getLast? = some '\n' := by
  have h5 : ("\n```\n" : String).toList = ['\n', btick, btick, btick, '\n'] := by decide
  rw [gistBlockMd]
  by_cases h : b.language ≠ ""
  · rw [if_pos h]
    rw [show ("```" ++ b.language ++ "\n" ++ b.content ++ "\n```\n" : String) =
        ("```" ++ b.language ++ "\n" ++ b.content) ++ "\n```\n" from by
      simp [String.append_assoc]]
    rw [toList_append, List.getLast?_append_of_ne_nil _ (by rw [h5]; simp), h5]
    rfl
  · rw [if_neg h]
    rw [show ("```\n" ++ b.content ++ "\n```\n" : String) =
        ("```\n" ++ b.content) ++ "\n```\n" from by simp [String.append_assoc]]
    rw [toList_append, List.getLast?_append_of_ne_nil _ (by rw [h5]; simp), h5]
    rfl

/-- Character facts about a gist URL whose identifier consists of lowercase
hex characters (the shape guaranteed by the extraction regex
`[a-f0-9]+`). -/
theorem gistUrl_facts (gistId : String)
    (hid : ∀ c ∈ gistId.toList, c.isDigit ∨ ('a' ≤ c ∧ c ≤ 'f')) :
    (gistUrlOf gistId).toList ≠ [] ∧
    btick ∉ (gistUrlOf gistId).toList ∧ '\n' ∉ (gistUrlOf gistId).toList := by
  have hsplit : (gistUrlOf gistId).toList =
      "https://gist.github.com/rafaelcaricio/".toList ++ gistId.toList := by
    rw [gistUrlOf, toList_append]
  refine ⟨?_, ?_, ?_⟩
  · rw [hsplit]
    intro hc
    rw [List.append_eq_nil] at hc
    exact absurd hc.1 (by decide)
  · rw [hsplit]
    intro hmem
    rcases List.mem_append.mp hmem with hm | hm
    · revert hm
      decide
    · rcases hid _ hm with hd | hr
      · exact absurd hd (by decide)
      · exact absurd hr (by decide)
  · rw [hsplit]
    intro hmem
    rcases List.mem_append.mp hmem with hm | hm
    · revert hm
      decide
    · rcases hid _ hm with hd | hr
      · exact absurd hd (by decide)
      · exact absurd hr (by decide)

/-- C10: when a fetched gist yields more than one code block, only the first
is inlined — replacing the gist URL with the first block's fenced form
substitutes every occurrence of the URL, so the fenced blocks built for the
remaining files find no occurrence left and the loop result is exactly the
single substitution by the first block (the hypothesis `hb` states that the
first block's fenced form does not itself mention the URL; the identifier is
lowercase hex as produced by `extract_gist_urls`). -/
theorem claim_c10_only_first_file (content gistId : String)
    (b : GistCodeBlock) (rest : List GistCodeBlock)
    (hid : ∀ c ∈ gistId.toList, c.isDigit ∨ ('a' ≤ c ∧ c ≤ 'f'))
    (hb : countSub (gistUrlOf gistId).toList (gistBlockMd b).toList = 0) :
    inlineGistBlocks content gistId (b :: rest) =
      String.mk (replaceAll content.toList (gistUrlOf gistId).toList
        (gistBlockMd b).toList) ∧
    countSub (gistUrlOf gistId).toList
      (inlineGistBlocks content gistId (b :: rest)).toList = 0 := by
  obtain ⟨hne, hbt, hnl⟩ := gistUrl_facts gistId hid
  have hzero : countSub (gistUrlOf gistId).toList
      (replaceAll content.toList (gistUrlOf gistId).toList (gistBlockMd b).toList) = 0 := by
    apply countSub_replaceAll_eq_zero _ _ hne hb ?_ ?_ content.toList.length _ le_rfl
    · obtain ⟨t, ht⟩ := gistBlockMd_head b
      exact ⟨btick, t, ht, hbt⟩
    · exact ⟨ '\n', gistBlockMd_last b, hnl⟩
  have hfold : ∀ (blocks : List GistCodeBlock) (str : String),
      countSub (gistUrlOf gistId).toList str.toList = 0 →
      blocks.foldl (fun c b' =>
        String.mk (replaceAll c.toList (gistUrlOf gistId).toList
          (gistBlockMd b').toList)) str = str := by
    intro blocks
    induction blocks with
    | nil => intro str _; rfl
    | cons b' rest' ih =>
      intro str h
      rw [List.foldl_cons]
      have hno : replaceAll str.toList (gistUrlOf gistId).toList
          (gistBlockMd b').toList = str.toList :=
        replaceAll_no_op _ _ str.toList h
      rw [hno]
      have hmk : String.mk str.toList = str := rfl
      rw [hmk]
      exact ih str h
  have hmain : inlineGistBlocks content gistId (b :: rest) =
      String.mk (replaceAll content.toList (gistUrlOf gistId).toList
        (gistBlockMd b).toList) := by
    rw [inlineGistBlocks, List.foldl_cons]
    apply hfold
    exact hzero
  refine ⟨hmain, ?_⟩
  rw [hmain]
  exact hzero

/-! ## Claims about the Block Rewriter (C6, C7, C8)

The round-trip and idempotence claims.  `renderDoc` below assembles a
document from gaps and legacy blocks; the well-formedness predicates
(`okGap`, `okBody`) say that gaps and block bodies contain no legacy marker
and no backtick, and that a body does not start with whitespace (so the block
delimiter is exactly `[code]\n`). -/
theorem noBorder_openerM : NoBorder openerM := by
  intro k h1 h2
  simp only [openerM, List.length_cons, List.length_nil] at h2
  interval_cases k <;> decide

theorem noBorder_closerM : NoBorder closerM := by
  intro k h1 h2
  simp only [closerM, List.length_cons, List.length_nil] at h2
  interval_cases k <;> decide

theorem pyMaxBySecond_mem (first : String × Nat) (rest : List (String × Nat)) :
    (pyMaxBySecond first rest).1 = first.1 ∨
      ∃ p ∈ rest, (pyMaxBySecond first rest).1 = p.1 := by
  rw [pyMaxBySecond]
  induction rest generalizing first with
  | nil => exact Or.inl rfl
  | cons x xs ih =>
    rw [List.foldl_cons]
    rcases ih (if x.2 > first.2 then x else first) with h | ⟨p, hp, h⟩
    · by_cases hx : x.2 > first.2
      · rw [if_pos hx] at h ⊢
        exact Or.inr ⟨x, by simp, h⟩
      · rw [if_neg hx] at h ⊢
        exact Or.inl h
    · exact Or.inr ⟨p, by simp [hp], h⟩

theorem detect_content_label (code : String) (l : String)
    (hc : detect_language_from_content code = some l) :
    l = "text" ∨ l = "python" ∨ l = "rust" ∨ l = "bash" := by
  rw [detect_language_from_content] at hc
  dsimp only at hc
  split at hc
  · exact absurd hc (by simp)
  · split at hc
    · exact Or.inl (Option.some_injective _ hc).symm
    · split at hc
      · have hl := (Option.some_injective _ hc).symm
        rcases pyMaxBySecond_mem ("python", patternScore PYTHON_PATTERNS (codeLines code))
            [("rust", patternScore RUST_PATTERNS (codeLines code)),
             ("bash", patternScore BASH_PATTERNS (codeLines code))] with h | ⟨p, hp, h⟩
        · right; left
          rw [hl, h]
        · simp only [List.mem_cons, List.mem_singleton, List.not_mem_nil, or_false] at hp
          rcases hp with hp | hp <;> subst hp
          · right; right; left
            rw [hl, h]
          · right; right; right
            rw [hl, h]
      · exact absurd hc (by simp)

theorem detect_context_label (filename : String) (fm : List (String × String)) (l : String)
    (hc : detect_language_from_context filename fm = some l) :
    l = "python" ∨ l = "rust" := by
  rw [detect_language_from_context] at hc
  dsimp only at hc
  split_ifs at hc <;> simp_all

/-- The `detect_language` only ever returns one of the five fixed labels. -/
theorem detect_language_cases (code filename : String) (fm : List (String × String)) :
    detect_language code filename fm = "python" ∨ detect_language code filename fm = "rust" ∨
    detect_language code filename fm = "bash" ∨ detect_language code filename fm = "text" ∨
    detect_language code filename fm = "" := by
  rw [detect_language]
  cases hc : detect_language_from_content code with
  | some l =>
    rcases detect_content_label code l hc with h | h | h | h <;> subst h <;> simp
  | none =>
    cases hctx : detect_language_from_context filename fm with
    | some l =>
      rcases detect_context_label filename fm l hctx with h | h <;> subst h <;> simp
    | none => simp

/-- The label written on a fence contains no backtick and no legacy
marker. -/
theorem label_facts (code filename : String) (fm : List (String × String)) :
    (∀ c ∈ (detect_language code filename fm).toList, c ∉ fenceM) ∧
    countSub openerM (detect_language code filename fm).toList = 0 ∧
    countSub closerM (detect_language code filename fm).toList = 0 := by
  rcases detect_language_cases code filename fm with h | h | h | h | h <;> rw [h] <;>
    exact ⟨by decide, by decide, by decide⟩

/-- Matching the legacy-block pattern at a well-formed block: the match
consumes exactly the block and yields its rstripped body. -/
theorem matchHere_block (body rest : List Char)
    (hhead : headNotSpace body = true)
    (hcl : ¬ closerM <:+: body) :
    matchHere (openerM ++ '\n' :: (body ++ closerM ++ rest)) =
      some (pyRstripL body, rest) := by
  have hpre : openerM.isPrefixOf (openerM ++ '\n' :: (body ++ closerM ++ rest)) :=
    isPrefixOf_eq.mpr (List.prefix_append _ _)
  rw [matchHere, if_pos hpre]
  have hdrop : (openerM ++ '\n' :: (body ++ closerM ++ rest)).drop 6 =
      '\n' :: (body ++ closerM ++ rest) := by
    rw [show (6 : Nat) = openerM.length from rfl, List.drop_left]
  rw [hdrop]
  have htwtail : (body ++ closerM ++ rest).takeWhile pyIsSpace = [] := by
    match body, hhead with
    | [], _ =>
      rw [List.nil_append]
      rw [show closerM ++ rest = '[' :: (['/', 'c', 'o', 'd', 'e', ']'] ++ rest) from rfl]
      rw [List.takeWhile_cons_of_neg]
      decide
    | c :: b', hh =>
      have hc : pyIsSpace c = false := by
        rw [headNotSpace] at hh
        simp only [Bool.not_eq_true'] at hh
        exact hh
      rw [show (c :: b') ++ closerM ++ rest = c :: (b' ++ closerM ++ rest) from by simp]
      rw [List.takeWhile_cons_of_neg]
      simp [hc]
  have htw : ('\n' :: (body ++ closerM ++ rest)).takeWhile pyIsSpace = ['\n'] := by
    rw [List.takeWhile_cons_of_pos (by decide), htwtail]
  rw [htw]
  rw [if_pos (by decide : (['\n'] : List Char).contains '\n' = true)]
  rw [show nlDropCount ['\n'] = 1 from rfl]
  rw [show ('\n' :: (body ++ closerM ++ rest)).drop 1 = body ++ closerM ++ rest from rfl]
  rw [splitOnFirst_exact closerM (by decide) noBorder_closerM body hcl rest]

/-- No match begins anywhere strictly inside a marker-free region preceding a
block: the rewriter copies the region verbatim. -/
theorem rewriteBlocks_step (filename : String) (fm : List (String × String))
    (body rest : List Char)
    (hhead : headNotSpace body = true) (hcl : ¬ closerM <:+: body) :
    ∀ g, ¬ openerM <:+: g →
    rewriteBlocks filename fm (g ++ (openerM ++ '\n' :: (body ++ closerM ++ rest))) =
      g ++ (convert_code_block (pyRstripL body)
        (detect_language (String.mk (pyRstripL body)) filename fm) ++
      rewriteBlocks filename fm rest) := by
  intro g
  induction g with
  | nil =>
    intro _
    rw [List.nil_append, List.nil_append,
      rewriteBlocks_match filename fm _ _ _ (matchHere_block body rest hhead hcl)]
  | cons c g' ih =>
    intro hg
    have hshape : (c :: g') ++ (openerM ++ '\n' :: (body ++ closerM ++ rest)) =
        c :: (g' ++ (openerM ++ '\n' :: (body ++ closerM ++ rest))) := by simp
    have hshape2 : c :: (g' ++ (openerM ++ '\n' :: (body ++ closerM ++ rest))) =
        (c :: g') ++ openerM ++ ('\n' :: (body ++ closerM ++ rest)) := by simp
    have hnp : ¬ openerM.isPrefixOf (c :: (g' ++ (openerM ++ '\n' :: (body ++ closerM ++ rest)))) := by
      rw [hshape2]
      exact not_isPrefixOf_append_pat openerM noBorder_openerM (c :: g') hg (by simp) _
    have hnm : matchHere (c :: (g' ++ (openerM ++ '\n' :: (body ++ closerM ++ rest)))) = none := by
      rw [matchHere, if_neg hnp]
    rw [hshape, rewriteBlocks_cons_none _ _ _ _ hnm]
    have hg' : ¬ openerM <:+: g' := fun hi => hg (hi.trans (List.suffix_cons c g').isInfix)
    rw [ih hg']
    simp

theorem find_code_blocks_step (body rest : List Char)
    (hhead : headNotSpace body = true) (hcl : ¬ closerM <:+: body) :
    ∀ g, ¬ openerM <:+: g →
    find_code_blocks (g ++ (openerM ++ '\n' :: (body ++ closerM ++ rest))) =
      pyRstripL body :: find_code_blocks rest := by
  intro g
  induction g with
  | nil =>
    intro _
    rw [List.nil_append,
      find_code_blocks_match _ _ _ (matchHere_block body rest hhead hcl)]
  | cons c g' ih =>
    intro hg
    have hshape : (c :: g') ++ (openerM ++ '\n' :: (body ++ closerM ++ rest)) =
        c :: (g' ++ (openerM ++ '\n' :: (body ++ closerM ++ rest))) := by simp
    have hshape2 : c :: (g' ++ (openerM ++ '\n' :: (body ++ closerM ++ rest))) =
        (c :: g') ++ openerM ++ ('\n' :: (body ++ closerM ++ rest)) := by simp
    have hnp : ¬ openerM.isPrefixOf (c :: (g' ++ (openerM ++ '\n' :: (body ++ closerM ++ rest)))) := by
      rw [hshape2]
      exact not_isPrefixOf_append_pat openerM noBorder_openerM (c :: g') hg (by simp) _
    have hnm : matchHere (c :: (g' ++ (openerM ++ '\n' :: (body ++ closerM ++ rest)))) = none := by
      rw [matchHere, if_neg hnp]
    rw [hshape, find_code_blocks_cons_none _ _ hnm]
    exact ih (fun hi => hg (hi.trans (List.suffix_cons c g').isInfix))

/-- A document with no `[code]` marker has no legacy block at all: the
rewriter returns it unchanged and the block list is empty. -/
theorem rewriteBlocks_no_opener (filename : String) (fm : List (String × String)) :
    ∀ l, ¬ openerM <:+: l → rewriteBlocks filename fm l = l := by
  intro l
  induction l with
  | nil => intro _; exact rewriteBlocks_nil _ _
  | cons c cs ih =>
    intro h
    have hnp : ¬ openerM.isPrefixOf (c :: cs) :=
      fun hp => h (isPrefixOf_eq.mp hp).isInfix
    have hnm : matchHere (c :: cs) = none := by rw [matchHere, if_neg hnp]
    rw [rewriteBlocks_cons_none _ _ _ _ hnm,
      ih (fun hi => h (hi.trans (List.suffix_cons c cs).isInfix))]

theorem find_code_blocks_no_opener :
    ∀ l, ¬ openerM <:+: l → find_code_blocks l = [] := by
  intro l
  induction l with
  | nil => intro _; exact find_code_blocks_nil
  | cons c cs ih =>
    intro h
    have hnp : ¬ openerM.isPrefixOf (c :: cs) :=
      fun hp => h (isPrefixOf_eq.mp hp).isInfix
    have hnm : matchHere (c :: cs) = none := by rw [matchHere, if_neg hnp]
    rw [find_code_blocks_cons_none _ _ hnm,
      ih (fun hi => h (hi.trans (List.suffix_cons c cs).isInfix))]

theorem mem_fenceM {c : Char} (h : c ∈ fenceM) : c = btick := by
  simp only [fenceM, List.mem_cons, List.not_mem_nil, or_false] at h
  rcases h with h | h | h <;> exact h

theorem countSub_cons_skip (pat : List Char) (hpat : pat ≠ []) (c : Char) (b : List Char)
    (hc : c ∉ pat) : countSub pat (c :: b) = countSub pat b := by
  apply countSub_cons_neg
  intro hp
  match pat, hpat with
  | p :: ps, _ =>
    have hpc : p = c := by
      rcases isPrefixOf_eq.mp hp with ⟨t, ht⟩
      have := congrArg (fun l => l.head?) ht
      simpa using this
    exact hc (hpc ▸ List.mem_cons_self p ps)

/-- The rstripped body keeps a prefix of the body. -/
theorem pyRstripL_prefix (l : List Char) : pyRstripL l <+: l := by
  rw [pyRstripL]
  have h1 : l.reverse.dropWhile pyIsSpace <:+ l.reverse := List.dropWhile_suffix pyIsSpace
  have h2 : (l.reverse.dropWhile pyIsSpace).reverse.reverse <:+ l.reverse := by
    rwa [List.reverse_reverse]
  have := (@List.reverse_suffix Char (l.reverse.dropWhile pyIsSpace).reverse l).mp
  apply this
  rwa [List.reverse_reverse]

/-- The three-backtick count through one rewritten block: a backtick-free gap,
an opening fence, a backtick-free label/newline/content/newline run, and a
closing fence contribute exactly two fence markers. -/
theorem countSub_fence_count (g lblL content W : List Char)
    (hg : btick ∉ g) (hlbl : btick ∉ lblL) (hcontent : btick ∉ content) :
    countSub fenceM (g ++ (btick :: (btick :: (btick :: (lblL ++
      ('\n' :: (content ++ ('\n' :: (btick :: (btick :: (btick :: W))))))))))) =
      countSub fenceM W + 2 := by
  rw [countSub_append_disj fenceM (by decide) g _
    (fun c hc hcf => hg (mem_fenceM hcf ▸ hc))]
  rw [show btick :: (btick :: (btick :: (lblL ++
      ('\n' :: (content ++ ('\n' :: (btick :: (btick :: (btick :: W))))))))) =
    fenceM ++ (lblL ++ ('\n' :: (content ++ ('\n' :: (btick :: (btick :: (btick :: W)))))))
    from rfl]
  rw [countSub_self_append fenceM (by decide)]
  have hmid : lblL ++ ('\n' :: (content ++ ('\n' :: (btick :: (btick :: (btick :: W)))))) =
      (lblL ++ ('\n' :: (content ++ ['\n']))) ++ (btick :: (btick :: (btick :: W))) := by
    simp
  rw [hmid]
  rw [countSub_append_disj fenceM (by decide) _ _ ?hdisj]
  case hdisj =>
    intro c hc hcf
    have hcb := mem_fenceM hcf
    subst hcb
    simp only [List.mem_append, List.mem_cons, List.not_mem_nil, or_false] at hc
    rcases hc with hc | hc | hc
    · exact hlbl hc
    · exact absurd hc (by decide)
    · rcases hc with hc | hc
      · exact hcontent hc
      · exact absurd hc (by decide)
  rw [show btick :: (btick :: (btick :: W)) = fenceM ++ W from rfl]
  rw [countSub_self_append fenceM (by decide)]

/-- A legacy marker does not survive anywhere in one rewritten block built
from marker-free pieces. -/
theorem countSub_marker_block (pat : List Char) (hpat : pat ≠ [])
    (hbt : btick ∉ pat) (hnl : '\n' ∉ pat)
    (g lblL content W : List Char)
    (hg : countSub pat g = 0) (hlbl : countSub pat lblL = 0)
    (hcontent : countSub pat content = 0) :
    countSub pat (g ++ (btick :: (btick :: (btick :: (lblL ++
      ('\n' :: (content ++ ('\n' :: (btick :: (btick :: (btick :: W))))))))))) =
      countSub pat W := by
  rw [countSub_append_barrier pat hpat g btick _ hbt hg]
  rw [countSub_cons_skip pat hpat btick _ hbt]
  rw [countSub_cons_skip pat hpat btick _ hbt]
  rw [countSub_append_barrier pat hpat lblL '\n' _ hnl hlbl]
  rw [countSub_append_barrier pat hpat content '\n' _ hnl hcontent]
  rw [countSub_cons_skip pat hpat btick _ hbt]
  rw [countSub_cons_skip pat hpat btick _ hbt]
  rw [countSub_cons_skip pat hpat btick _ hbt]

/-- The heart of the round-trip claim: counts over the rewritten form of a
well-formed document. -/
theorem rewrite_render_counts (filename : String) (fm : List (String × String)) :
    ∀ (segs : List (List Char × List Char)) (g : List Char), okGap g →
      (∀ p ∈ segs, okBody p.1 ∧ okGap p.2) →
      countSub fenceM (rewriteBlocks filename fm (renderDoc g segs)) = 2 * segs.length ∧
      countSub openerM (rewriteBlocks filename fm (renderDoc g segs)) = 0 ∧
      countSub closerM (rewriteBlocks filename fm (renderDoc g segs)) = 0 ∧
      (find_code_blocks (renderDoc g segs)).length = segs.length := by
  intro segs
  induction segs with
  | nil =>
    intro g hg _
    rw [show renderDoc g [] = g from rfl]
    have hgo : ¬ openerM <:+: g := not_infix_of_countSub_zero (by decide) hg.1
    rw [rewriteBlocks_no_opener filename fm g hgo, find_code_blocks_no_opener g hgo]
    refine ⟨?_, hg.1, hg.2.1, rfl⟩
    rw [(countSub_eq_zero_iff fenceM (by decide) g).mpr
      (fun hi => hg.2.2 (hi.subset (by decide)))]
    simp
  | cons p segs' ih =>
    obtain ⟨body, gap⟩ := p
    intro g hg hseg
    have hb : okBody body := (hseg _ (List.mem_cons_self _ _)).1
    have hgap : okGap gap := (hseg _ (List.mem_cons_self _ _)).2
    have hrest : ∀ p ∈ segs', okBody p.1 ∧ okGap p.2 :=
      fun p hp => hseg p (List.mem_cons_of_mem _ hp)
    have hgo : ¬ openerM <:+: g := not_infix_of_countSub_zero (by decide) hg.1
    have hcli : ¬ closerM <:+: body := not_infix_of_countSub_zero (by decide) hb.2.2.1
    rw [show renderDoc g ((body, gap) :: segs') =
      g ++ (openerM ++ '\n' :: (body ++ closerM ++ renderDoc gap segs')) from rfl]
    rw [rewriteBlocks_step filename fm body (renderDoc gap segs') hb.1 hcli g hgo]
    rw [find_code_blocks_step body (renderDoc gap segs') hb.1 hcli g hgo]
    obtain ⟨ihf, iho, ihc, ihn⟩ := ih gap hgap hrest
    have hcpref : pyRstripL body <+: body := pyRstripL_prefix body
    have hcont_bt : btick ∉ pyRstripL body := fun hm => hb.2.2.2 (hcpref.subset hm)
    have hcont_o : countSub openerM (pyRstripL body) = 0 :=
      countSub_zero_of_infix (by decide) hcpref.isInfix hb.2.1
    have hcont_c : countSub closerM (pyRstripL body) = 0 :=
      countSub_zero_of_infix (by decide) hcpref.isInfix hb.2.2.1
    obtain ⟨hlbl_bt, hlbl_o, hlbl_c⟩ :=
      label_facts (String.mk (pyRstripL body)) filename fm
    have hlbl_bt' : btick ∉
        (detect_language (String.mk (pyRstripL body)) filename fm).toList :=
      fun hm => hlbl_bt btick hm (by decide)
    have hshape : g ++ (convert_code_block (pyRstripL body)
        (detect_language (String.mk (pyRstripL body)) filename fm) ++
        rewriteBlocks filename fm (renderDoc gap segs')) =
      g ++ (btick :: (btick :: (btick ::
        ((detect_language (String.mk (pyRstripL body)) filename fm).toList ++
        ('\n' :: (pyRstripL body ++ ('\n' :: (btick :: (btick :: (btick ::
          rewriteBlocks filename fm (renderDoc gap segs'))))))))))) := by
      rw [convert_code_block_eq]
      simp [fenceM]
    rw [hshape]
    refine ⟨?_, ?_, ?_, ?_⟩
    · rw [countSub_fence_count _ _ _ _ hg.2.2 hlbl_bt' hcont_bt, ihf]
      simp only [List.length_cons]
      omega
    · rw [countSub_marker_block openerM (by decide) (by decide) (by decide)
        _ _ _ _ hg.1 hlbl_o hcont_o, iho]
    · rw [countSub_marker_block closerM (by decide) (by decide) (by decide)
        _ _ _ _ hg.2.1 hlbl_c hcont_c, ihc]
    · simp only [List.length_cons, ihn]

/-- C6 counterexample: the one-line document `[/code]` contains zero legacy
blocks, so the Block Rewriter leaves it unchanged — yet its output contains a
legacy closing marker, contradicting "exactly 2N fence markers and zero
legacy markers" for N = 0. -/
theorem claim_c6_counterexample :
    find_code_blocks "[/code]".toList = [] ∧
    process_file "a.md" "[/code]".toList false =
      ⟨"[/code]".toList, false, 0, []⟩ ∧
    countSub closerM "[/code]".toList = 1 := by
  refine ⟨?_, ?_, ?_⟩ <;> decide

/-- C6 (amended): for every document assembled from N well-formed legacy
blocks separated by well-formed gaps (no legacy markers and no backticks
outside the block delimiters, block bodies not starting with whitespace), and
not subject to the file-specific GStreamer fix, the Block Rewriter's output
contains exactly 2N fence markers and zero legacy opening or closing markers,
where N is exactly the number of blocks `find_code_blocks` locates. -/
theorem claim_c6_round_trip (filename : String) (segs : List (List Char × List Char))
    (g : List Char)
    (hfix : pyIn "2025-11-17".toList filename.toList = false)
    (hg : okGap g) (hsegs : ∀ p ∈ segs, okBody p.1 ∧ okGap p.2) :
    countSub fenceM (convertedDoc filename (renderDoc g segs)) = 2 * segs.length ∧
    countSub openerM (convertedDoc filename (renderDoc g segs)) = 0 ∧
    countSub closerM (convertedDoc filename (renderDoc g segs)) = 0 ∧
    (find_code_blocks (renderDoc g segs)).length = segs.length := by
  have hconv : convertedDoc filename (renderDoc g segs) =
      rewriteBlocks filename (parse_frontmatter (renderDoc g segs)) (renderDoc g segs) := by
    rw [convertedDoc]
    simp only [hfix, Bool.false_eq_true, if_false]
  rw [hconv]
  exact rewrite_render_counts filename (parse_frontmatter (renderDoc g segs)) segs g hg hsegs

/-- C6 (amended) witness: a two-block document rewrites to four fence markers
and no legacy markers. -/
theorem claim_c6_witness :
    countSub fenceM (convertedDoc "a.md"
      (renderDoc "intro\n".toList
        [("print(1)".toList, "\nmid\n".toList), ("ls -la".toList, "\nbye".toList)])) = 4 ∧
    countSub openerM (convertedDoc "a.md"
      (renderDoc "intro\n".toList
        [("print(1)".toList, "\nmid\n".toList), ("ls -la".toList, "\nbye".toList)])) = 0 ∧
    countSub closerM (convertedDoc "a.md"
      (renderDoc "intro\n".toList
        [("print(1)".toList, "\nmid\n".toList), ("ls -la".toList, "\nbye".toList)])) = 0 ∧
    (find_code_blocks (renderDoc "intro\n".toList
        [("print(1)".toList, "\nmid\n".toList), ("ls -la".toList, "\nbye".toList)])).length = 2 := by
  have h := claim_c6_round_trip "a.md"
    [("print(1)".toList, "\nmid\n".toList), ("ls -la".toList, "\nbye".toList)]
    "intro\n".toList (by decide)
    (by refine ⟨?_, ?_, ?_⟩ <;> decide)
    (by
      intro p hp
      simp only [List.mem_cons, List.not_mem_nil, or_false] at hp
      rcases hp with hp | hp <;> subst hp <;>
        exact ⟨⟨by decide, by decide, by decide, by decide⟩,
               by decide, by decide, by decide⟩)
  exact h

/-- C7: a document containing no legacy markers is left untouched by the
Block Rewriter: `process_file` returns the document content unchanged (no
write occurs) and the rewrite itself is the identity. -/
theorem claim_c7_idempotence (filename : String) (doc : List Char) (dryRun : Bool)
    (ho : countSub openerM doc = 0) (hc : countSub closerM doc = 0) :
    process_file filename doc dryRun = ⟨doc, false, 0, []⟩ ∧
    ∀ fm, rewriteBlocks filename fm doc = doc := by
  have hgo : ¬ openerM <:+: doc := not_infix_of_countSub_zero (by decide) ho
  have hblocks : find_code_blocks doc = [] := find_code_blocks_no_opener doc hgo
  constructor
  · rw [process_file]
    dsimp only
    rw [if_pos hblocks]
  · intro fm
    exact rewriteBlocks_no_opener filename fm doc hgo

/-- C7 witness: an already-converted document (fenced blocks, no legacy
markers) is returned unchanged. -/
theorem claim_c7_witness :
    process_file "a.md" "hello\n```\nx\n```\nbye".toList false =
      ⟨"hello\n```\nx\n```\nbye".toList, false, 0, []⟩ ∧
    ∀ fm, rewriteBlocks "a.md" fm "hello\n```\nx\n```\nbye".toList =
      "hello\n```\nx\n```\nbye".toList :=
  claim_c7_idempotence "a.md" "hello\n```\nx\n```\nbye".toList false
    (by decide) (by decide)

/-- C8: when the rewritten form of a document with at least one legacy block
fails validation, the rewrite is not persisted: `process_file` returns the
original content unchanged, reports failure, and hands the computed issue
list back to the caller. -/
theorem claim_c8_validation_failure (filename : String) (doc : List Char) (dryRun : Bool)
    (hblocks : find_code_blocks doc ≠ [])
    (hissues : validate_conversion doc (convertedDoc filename doc) ≠ []) :
    process_file filename doc dryRun =
      ⟨doc, false, 0, validate_conversion doc (convertedDoc filename doc)⟩ := by
  rw [process_file]
  dsimp only
  rw [if_neg hblocks, if_pos hissues]

/-- C8 witness: a stray upper-case `[CODE]` outside the single block makes
the lowercased validation fail; the document is left as it was and the issue
is reported. -/
theorem claim_c8_witness :
    process_file "a.md" "[code]\nx[/code]\n[CODE]".toList false =
      ⟨"[code]\nx[/code]\n[CODE]".toList, false, 0,
        validate_conversion "[code]\nx[/code]\n[CODE]".toList
          (convertedDoc "a.md" "[code]\nx[/code]\n[CODE]".toList)⟩ :=
  claim_c8_validation_failure "a.md" "[code]\nx[/code]\n[CODE]".toList false
    (by decide) (by decide)

/-- C10 witness: with two extracted blocks, only the first fenced block
appears; all occurrences of the URL are replaced by it. -/
theorem claim_c10_witness :
    inlineGistBlocks "see https://gist.github.com/rafaelcaricio/abc123 end" "abc123"
        [⟨"a.py", "python", "print(1)"⟩, ⟨"b.py", "python", "print(2)"⟩] =
      "see ```python\nprint(1)\n```\n end" ∧
    countSub (gistUrlOf "abc123").toList
      (inlineGistBlocks "see https://gist.github.com/rafaelcaricio/abc123 end" "abc123"
        [⟨"a.py", "python", "print(1)"⟩, ⟨"b.py", "python", "print(2)"⟩]).toList = 0 := by
  have h := claim_c10_only_first_file
    "see https://gist.github.com/rafaelcaricio/abc123 end" "abc123"
    ⟨"a.py", "python", "print(1)"⟩ [⟨"b.py", "python", "print(2)"⟩]
    (by decide) (by decide)
  refine ⟨?_, h.2⟩
  rw [h.1]
  decide

end Caricio

